import Mathlib

/-!
Shallow embedding of the results-aggregation core of
`src/mf_prior_experiments/configs/plotting/types.py`: the `Result` record,
`Trace` transformations (continuation stitching, cumulative fidelity,
incumbent extraction, range filter, axis rescaling, series projection),
the two raw-format loaders, and the ranking machinery of
`BenchmarkResults.ranks` / `ExperimentResults.ranks`.

Python floats are modelled as rationals (`ℚ`), fallible code (assertions,
raised exceptions, out-of-bounds indexing) as `Except String`.
-/

namespace MFP

/-! ### Sorting with a key, modelling Python `sorted(key=...)` (stable) -/

def keyLE {α β : Type} [LinearOrder β] (k : α → β) : α → α → Prop :=
  fun a b => k a ≤ k b

instance {α β : Type} [LinearOrder β] (k : α → β) : DecidableRel (keyLE k) :=
  fun a b => inferInstanceAs (Decidable (k a ≤ k b))

instance {α β : Type} [LinearOrder β] (k : α → β) : IsTotal α (keyLE k) :=
  ⟨fun a b => le_total (k a) (k b)⟩

instance {α β : Type} [LinearOrder β] (k : α → β) : IsTrans α (keyLE k) :=
  ⟨fun _ _ _ => le_trans⟩

def sortOn {α β : Type} [LinearOrder β] (k : α → β) (l : List α) : List α :=
  List.insertionSort (keyLE k) l

theorem sortOn_perm {α β : Type} [LinearOrder β] (k : α → β) (l : List α) :
    List.Perm (sortOn k l) l :=
  List.perm_insertionSort (keyLE k) l

theorem sortOn_sorted {α β : Type} [LinearOrder β] (k : α → β) (l : List α) :
    List.Sorted (keyLE k) (sortOn k l) :=
  List.sorted_insertionSort (keyLE k) l

theorem sortOn_length {α β : Type} [LinearOrder β] (k : α → β) (l : List α) :
    (sortOn k l).length = l.length :=
  (sortOn_perm k l).length_eq

theorem mem_sortOn {α β : Type} [LinearOrder β] (k : α → β) {l : List α} {x : α} :
    x ∈ sortOn k l ↔ x ∈ l :=
  (sortOn_perm k l).mem_iff

/-! ### Runs of adjacent related elements, modelling `itertools.groupby` -/

def runsBy {α : Type} (R : α → α → Bool) : List α → List (List α)
  | [] => []
  | [a] => [[a]]
  | a :: b :: l =>
    match runsBy R (b :: l) with
    | [] => [[a]]
    | g :: gs => if R a b then (a :: g) :: gs else [a] :: g :: gs

theorem runsBy_join {α : Type} (R : α → α → Bool) :
    ∀ l : List α, (runsBy R l).flatten = l := by
  intro l
  induction l with
  | nil => rfl
  | cons a l ih =>
    cases l with
    | nil => rfl
    | cons b l' =>
      rw [runsBy]
      rcases h : runsBy R (b :: l') with _ | ⟨g, gs⟩
      · rw [h] at ih; simp at ih
      · rw [h] at ih
        by_cases hR : R a b
        · simp [hR, List.flatten, ← ih]
        · simp [hR, List.flatten, ← ih]

theorem runsBy_ne_nil {α : Type} (R : α → α → Bool) :
    ∀ l : List α, ∀ g ∈ runsBy R l, g ≠ [] := by
  intro l
  induction l with
  | nil => intro g hg; simp [runsBy] at hg
  | cons a l ih =>
    cases l with
    | nil => intro g hg; simp [runsBy] at hg; simp [hg]
    | cons b l' =>
      intro g hg
      rw [runsBy] at hg
      rcases h : runsBy R (b :: l') with _ | ⟨g', gs⟩
      · rw [h] at hg; simp at hg; simp [hg]
      · rw [h] at hg
        by_cases hR : R a b
        · simp [hR] at hg
          rcases hg with hg | hg
          · simp [hg]
          · exact ih g (by rw [h]; exact List.mem_cons_of_mem _ hg)
        · simp [hR] at hg
          rcases hg with hg | hg | hg
          · simp [hg]
          · exact ih g (by rw [h, hg]; exact List.mem_cons_self _ _)
          · exact ih g (by rw [h]; exact List.mem_cons_of_mem _ hg)

theorem mem_of_mem_runsBy {α : Type} {R : α → α → Bool} {l : List α}
    {g : List α} {x : α} (hg : g ∈ runsBy R l) (hx : x ∈ g) : x ∈ l := by
  rw [← runsBy_join R l]
  exact List.mem_flatten.2 ⟨g, hg, hx⟩

/-! ### Monadic map over `Except`, modelling sequential Python loops -/

def exMapM {ε α β : Type} (f : α → Except ε β) : List α → Except ε (List β)
  | [] => .ok []
  | a :: l =>
    match f a with
    | .error e => .error e
    | .ok b =>
      match exMapM f l with
      | .error e => .error e
      | .ok bs => .ok (b :: bs)

theorem exMapM_ok_length {ε α β : Type} {f : α → Except ε β} :
    ∀ {l : List α} {out : List β}, exMapM f l = .ok out → out.length = l.length := by
  intro l
  induction l with
  | nil => intro out h; simp [exMapM] at h; simp [← h]
  | cons a l ih =>
    intro out h
    rw [exMapM] at h
    rcases ha : f a with e | b
    · rw [ha] at h; exact absurd h (by simp)
    · rw [ha] at h
      rcases hl : exMapM f l with e | bs
      · rw [hl] at h; exact absurd h (by simp)
      · rw [hl] at h
        simp only [Except.ok.injEq] at h
        subst h
        simp [ih hl]

theorem exMapM_ok_of_forall {ε α β : Type} {f : α → Except ε β} {g : α → β} :
    ∀ {l : List α}, (∀ x ∈ l, f x = .ok (g x)) → exMapM f l = .ok (l.map g) := by
  intro l
  induction l with
  | nil => intro _; rfl
  | cons a l ih =>
    intro h
    rw [exMapM, h a (List.mem_cons_self _ _), ih (fun x hx => h x (List.mem_cons_of_mem _ hx))]
    rfl

theorem exMapM_ok_mem {ε α β : Type} {f : α → Except ε β} :
    ∀ {l : List α} {out : List β}, exMapM f l = .ok out →
      ∀ b ∈ out, ∃ a ∈ l, f a = .ok b := by
  intro l
  induction l with
  | nil =>
    intro out h b hb
    simp only [exMapM, Except.ok.injEq] at h
    subst h
    exact absurd hb (List.not_mem_nil b)
  | cons a l ih =>
    intro out h b hb
    rw [exMapM] at h
    rcases ha : f a with e | b' <;> rw [ha] at h
    · exact absurd h (by simp)
    · rcases hl : exMapM f l with e | bs <;> rw [hl] at h
      · exact absurd h (by simp)
      · simp only [Except.ok.injEq] at h
        subst h
        rw [List.mem_cons] at hb
        rcases hb with hb | hb
        · exact ⟨a, List.mem_cons_self _ _, by rw [ha, hb]⟩
        · obtain ⟨x, hx, hfx⟩ := ih hl b hb
          exact ⟨x, List.mem_cons_of_mem _ hx, hfx⟩

/-! ### The `Result` dataclass (one evaluation record) -/

structure ResultF (α : Type) where
  id : Int
  bracket : Option Int
  loss : ℚ
  cost : ℚ
  val_score : ℚ
  test_score : ℚ
  fidelity : Int
  start_time : ℚ
  end_time : ℚ
  max_fidelity_loss : ℚ
  max_fidelity_cost : ℚ
  cumulated_fidelity : Option ℚ := none
  start_time_since_global_start : Option ℚ := none
  end_time_since_global_start : Option ℚ := none
  continued_from : Option α := none
  process_id : Option Int := none

inductive Result : Type where
  | mk : ResultF Result → Result

def Result.fields : Result → ResultF Result
  | .mk f => f

def Result.id (r : Result) : Int := r.fields.id

def Result.bracket (r : Result) : Option Int := r.fields.bracket

def Result.loss (r : Result) : ℚ := r.fields.loss

def Result.cost (r : Result) : ℚ := r.fields.cost

def Result.val_score (r : Result) : ℚ := r.fields.val_score

def Result.test_score (r : Result) : ℚ := r.fields.test_score

def Result.fidelity (r : Result) : Int := r.fields.fidelity

def Result.start_time (r : Result) : ℚ := r.fields.start_time

def Result.end_time (r : Result) : ℚ := r.fields.end_time

def Result.max_fidelity_loss (r : Result) : ℚ := r.fields.max_fidelity_loss

def Result.max_fidelity_cost (r : Result) : ℚ := r.fields.max_fidelity_cost

def Result.cumulated_fidelity (r : Result) : Option ℚ := r.fields.cumulated_fidelity

def Result.start_time_since_global_start (r : Result) : Option ℚ :=
  r.fields.start_time_since_global_start

def Result.end_time_since_global_start (r : Result) : Option ℚ :=
  r.fields.end_time_since_global_start

def Result.continued_from (r : Result) : Option Result := r.fields.continued_from

def Result.process_id (r : Result) : Option Int := r.fields.process_id

/-- `Result.continue_from` (types.py lines 182-190): asserts that no
continuation reference is set yet, then returns a copy with incremental
fidelity and cost and a back-reference to the previous evaluation. -/
def Result.continue_from (self other : Result) : Except String Result :=
  match self.continued_from with
  | some _ => .error "AssertionError: continued_from is already set"
  | none => .ok (.mk { self.fields with
      fidelity := self.fidelity - other.fidelity
      cost := self.cost - other.cost
      continued_from := some other })

/-- Set the derived `cumulated_fidelity` field (`Result.mutate`). -/
def Result.withCumulated (r : Result) (q : Option ℚ) : Result :=
  .mk { r.fields with cumulated_fidelity := q }

/-! ### Named numeric axis fields, for `getattr`/`setattr` on an axis -/

inductive Axis : Type where
  | loss | cost | val_score | test_score
  | start_time | end_time
  | max_fidelity_loss | max_fidelity_cost
  | cumulated_fidelity
  | start_time_since_global_start | end_time_since_global_start

def axGet : Axis → Result → Option ℚ
  | .loss, r => some r.loss
  | .cost, r => some r.cost
  | .val_score, r => some r.val_score
  | .test_score, r => some r.test_score
  | .start_time, r => some r.start_time
  | .end_time, r => some r.end_time
  | .max_fidelity_loss, r => some r.max_fidelity_loss
  | .max_fidelity_cost, r => some r.max_fidelity_cost
  | .cumulated_fidelity, r => r.cumulated_fidelity
  | .start_time_since_global_start, r => r.start_time_since_global_start
  | .end_time_since_global_start, r => r.end_time_since_global_start

def axSet : Axis → ℚ → Result → Result
  | .loss, v, r => .mk { r.fields with loss := v }
  | .cost, v, r => .mk { r.fields with cost := v }
  | .val_score, v, r => .mk { r.fields with val_score := v }
  | .test_score, v, r => .mk { r.fields with test_score := v }
  | .start_time, v, r => .mk { r.fields with start_time := v }
  | .end_time, v, r => .mk { r.fields with end_time := v }
  | .max_fidelity_loss, v, r => .mk { r.fields with max_fidelity_loss := v }
  | .max_fidelity_cost, v, r => .mk { r.fields with max_fidelity_cost := v }
  | .cumulated_fidelity, v, r => .mk { r.fields with cumulated_fidelity := some v }
  | .start_time_since_global_start, v, r =>
      .mk { r.fields with start_time_since_global_start := some v }
  | .end_time_since_global_start, v, r =>
      .mk { r.fields with end_time_since_global_start := some v }

theorem axGet_axSet (ax : Axis) (v : ℚ) (r : Result) :
    axGet ax (axSet ax v r) = some v := by
  cases ax <;> cases r <;> rfl

theorem axSet_axSet (ax : Axis) (v w : ℚ) (r : Result) :
    axSet ax w (axSet ax v r) = axSet ax w r := by
  cases ax <;> cases r <;> rfl

theorem axSet_axGet_self {ax : Axis} {r : Result} {v : ℚ}
    (h : axGet ax r = some v) : axSet ax v r = r := by
  cases ax <;> cases r <;>
    simp only [axGet, Option.some.injEq] at h <;>
    simp only [axSet, Result.loss, Result.cost, Result.val_score, Result.test_score,
      Result.start_time, Result.end_time, Result.max_fidelity_loss,
      Result.max_fidelity_cost, Result.cumulated_fidelity,
      Result.start_time_since_global_start, Result.end_time_since_global_start,
      Result.fields] at h ⊢ <;>
    rw [← h]

/-! ### `Trace`: the per-(benchmark, algorithm, seed) record sequence -/

structure Trace : Type where
  results : List Result

/-- Bracket sort key inside `with_continuations`: absent bracket counts as 0. -/
def bracketKey (res : Result) : Int :=
  match res.bracket with
  | none => 0
  | some b => b

/-- One group of `with_continuations`: keep the lowest-bracket record, then for
every adjacent pair `(lower, higher)` produce `higher.continue_from lower`. -/
def stitchGroup : List Result → Except String (List Result)
  | [] => .ok []
  | a :: rest =>
    match exMapM (fun p => Result.continue_from p.2 p.1) ((a :: rest).zip rest) with
    | .error e => .error e
    | .ok conts => .ok (a :: conts)

/-- `Trace.with_continuations` (types.py lines 346-382): sort by config id,
group by id, sort each group by bracket, stitch each group, check the count
is preserved, and re-sort by end time. -/
def Trace.with_continuations (t : Trace) : Except String Trace :=
  match exMapM stitchGroup
      ((runsBy (fun a b => a.id == b.id) (sortOn (fun r => r.id) t.results)).map
        (sortOn bracketKey)) with
  | .error e => .error e
  | .ok stitched =>
    if (sortOn (fun r => r.id) t.results).length = stitched.flatten.length then
      .ok ⟨sortOn (fun r => r.end_time) stitched.flatten⟩
    else .error "AssertionError: record count changed"

/-- `more_itertools.all_equal`. -/
def allEqual {α : Type} [BEq α] : List α → Bool
  | [] => true
  | a :: l => l.all (fun x => x == a)

/-- `itertools.accumulate` running sums, starting from `acc`. -/
def accumFrom (acc : Int) : List Int → List Int
  | [] => []
  | x :: l => (acc + x) :: accumFrom (acc + x) l

def accumulate (l : List Int) : List Int := accumFrom 0 l

/-- The single-worker branch of `Trace.with_cumulative_fidelity`
(types.py lines 390-403): all records must share one worker id; sort by end
time and assign the running sum of `fidelity` as `cumulated_fidelity`. -/
def Trace.cumulateSingle (t : Trace) : Except String Trace :=
  if allEqual (t.results.map (fun r => r.process_id)) then
    .ok ⟨((sortOn (fun r => r.end_time) t.results).zip
        (accumulate ((sortOn (fun r => r.end_time) t.results).map (fun r => r.fidelity)))).map
        (fun p => p.1.withCumulated (some (p.2 : ℚ)))⟩
  else .error "AssertionError: records span several process ids"

/-- First half of the multi-worker branch (types.py lines 404-427): every
record must carry a worker id; partition by worker id and give each worker
its own running fidelity total, then merge. -/
def Trace.cumulatePerWorker (t : Trace) : Except String (List Result) :=
  if t.results.all (fun r => r.process_id.isSome) then
    match exMapM (fun g => Trace.cumulateSingle ⟨g⟩)
        (runsBy (fun a b => a.process_id == b.process_id)
          (sortOn (fun r => (r.process_id.getD 0)) t.results)) with
    | .error e => .error e
    | .ok cumTraces => .ok ((cumTraces.map Trace.results).flatten)
  else .error "AssertionError: a record has no process id"

/-- Python `min(results, key=k)`: first element attaining the minimum key. -/
def minBy {α : Type} (k : α → ℚ) : List α → Option α
  | [] => none
  | a :: l => some (l.foldl (fun m x => if k x < k m then x else m) a)

/-- Second half of the multi-worker branch (types.py lines 436-459): sort the
merged records by `cumulated_fidelity`, keep only the minimum-loss record of
every group sharing a `cumulated_fidelity` value, and re-sort. -/
def dedupByCumFid (l : List Result) : List Result :=
  sortOn (fun r => r.cumulated_fidelity.getD 0)
    ((runsBy (fun a b => a.cumulated_fidelity == b.cumulated_fidelity)
        (sortOn (fun r => r.cumulated_fidelity.getD 0) l)).filterMap
      (minBy (fun r => r.loss)))

/-- `Trace.with_cumulative_fidelity` (types.py lines 384-461). The
deduplication metric must be the lower-is-better `loss`; anything else hits
the `assert yaxis == "loss"` and fails. -/
def Trace.with_cumulative_fidelity (t : Trace) (n_workers : Option Nat)
    (yaxis : String) : Except String Trace :=
  if n_workers = none ∨ n_workers = some 1 then
    t.cumulateSingle
  else
    match t.cumulatePerWorker with
    | .error e => .error e
    | .ok merged =>
      if yaxis = "loss" then .ok ⟨dedupByCumFid merged⟩
      else .error "AssertionError: yaxis is not supported right now"

/-- The incumbent walk of `Trace.incumbent_trace`: append a record whenever
its loss strictly improves on the running incumbent. -/
def incumbentLoop (inc : Result) : List Result → List Result
  | [] => []
  | r :: rs => if r.loss < inc.loss then r :: incumbentLoop r rs else incumbentLoop inc rs

/-- `Trace.incumbent_trace` (types.py lines 463-482): only `loss` is
supported; sort by the x-axis, start from the first record, and keep the
strictly improving ones.  Indexing `results[0]` fails on an empty trace. -/
def Trace.incumbent_trace (t : Trace) (xaxis : Result → ℚ) (yaxis : String) :
    Except String Trace :=
  if yaxis ≠ "loss" then .error "NotImplementedError: yaxis is not supported"
  else
    match sortOn xaxis t.results with
    | [] => .error "IndexError: list index out of range"
    | inc :: rest => .ok ⟨inc :: incumbentLoop inc rest⟩

/-- `Trace.in_range` (types.py lines 484-490). -/
def Trace.in_range (t : Trace) (bounds : ℚ × ℚ) (xaxis : Result → ℚ) : Trace :=
  ⟨sortOn xaxis (t.results.filter
    (fun r => decide (bounds.1 ≤ xaxis r) && decide (xaxis r ≤ bounds.2)))⟩

/-- `Trace.rescale_xaxis` (types.py lines 492-501): multiply the named axis
field of every record by `c` (a missing value is a `TypeError`), then re-sort
by the rescaled axis value. -/
def Trace.rescale_xaxis (t : Trace) (c : ℚ) (ax : Axis) : Except String Trace :=
  match exMapM (fun r =>
      match axGet ax r with
      | none => Except.error "TypeError: unsupported operand type"
      | some v => Except.ok (axSet ax (v * c) r)) t.results with
  | .error e => .error e
  | .ok results => .ok ⟨sortOn (fun r => (axGet ax r).getD 0) results⟩

/-- `Trace.series` (types.py lines 503-508): project to (index, value) pairs
sorted by index. -/
def Trace.series (t : Trace) (index values : Result → ℚ) : List (ℚ × ℚ) :=
  sortOn Prod.fst (t.results.map (fun r => (index r, values r)))

/-! ### Raw-format loaders, over in-memory images of the on-disk data -/

/-- One `config_...` directory of the neps layout: the directory-name parts
and the fields read from `result.yaml`. -/
structure NepsConfigDir where
  name_id : Int
  name_bracket : Option Int
  loss : ℚ
  cost : ℚ
  val_score : ℚ
  test_score : ℚ
  fidelity : Int
  start_time : ℚ
  end_time : ℚ
  max_fidelity_loss : ℚ
  max_fidelity_cost : ℚ
  process_id : Option Int := none

/-- `Result.from_dir` (types.py lines 153-180). -/
def Result.from_dir (d : NepsConfigDir) : Result :=
  .mk {
    id := d.name_id
    bracket := d.name_bracket
    loss := d.loss
    cost := d.cost
    val_score := d.val_score
    test_score := d.test_score
    fidelity := d.fidelity
    start_time := d.start_time
    end_time := d.end_time
    max_fidelity_loss := d.max_fidelity_loss
    max_fidelity_cost := d.max_fidelity_cost
    process_id := d.process_id }

/-- Minimum of a list of rationals, seeded with `q` (Python `min` over a
non-empty collection). -/
def listMin (q : ℚ) (l : List ℚ) : ℚ := l.foldl min q

/-- Set the derived relative-time fields (`Result.mutate` in `load_neps`). -/
def Result.withRelTimes (r : Result) (global_start : ℚ) : Result :=
  .mk { r.fields with
    start_time_since_global_start := some (r.start_time - global_start)
    end_time_since_global_start := some (r.end_time - global_start) }

/-- `Trace.load_neps` (types.py lines 272-295): zero records is a fatal
`ValueError`; otherwise compute the global start, derive relative times, and
sort by end time. -/
def Trace.load_neps (config_dirs : List NepsConfigDir) : Except String Trace :=
  match config_dirs.map Result.from_dir with
  | [] => .error "ValueError: could not find results"
  | r :: rs =>
    let global_start := listMin r.start_time (rs.map (fun x => x.start_time))
    let results := (r :: rs).map (fun x => x.withRelTimes global_start)
    .ok ⟨sortOn (fun x => x.end_time) results⟩

/-- One line of the hpbandster `results.json` log. -/
structure HpbandsterLine where
  id : List Int
  budget : Int
  started : ℚ
  finished : ℚ
  loss : ℚ
  cost : ℚ
  val_score : ℚ
  test_score : ℚ
  max_fidelity_loss : ℚ
  max_fidelity_cost : ℚ

/-- Keep the first occurrence of every element, in first-seen order
(the key order of a Python dict built by insertion). -/
def firstSeenAux {α : Type} [BEq α] (seen : List α) : List α → List α
  | [] => []
  | a :: l => if seen.contains a then firstSeenAux seen l
              else a :: firstSeenAux (a :: seen) l

def firstSeen {α : Type} [BEq α] (l : List α) : List α := firstSeenAux [] l

/-- Index of the first occurrence of `x` (list length if absent). -/
def idxIn {α : Type} [BEq α] : List α → α → Nat
  | [], _ => 0
  | a :: l, x => if a == x then 0 else idxIn l x + 1

/-- Parse one hpbandster results line, given the first-seen config-id key
order and the ascending distinct budgets. -/
def hpbandsterParse (keys : List (List Int)) (budgets : List Int)
    (ln : HpbandsterLine) : Except String Result :=
  if keys.contains ln.id then
    .ok (Result.mk {
      id := Int.ofNat (idxIn keys ln.id)
      bracket := some (Int.ofNat (idxIn budgets ln.budget))
      loss := ln.loss
      cost := ln.cost
      val_score := ln.val_score
      test_score := ln.test_score
      fidelity := ln.budget
      start_time := ln.started
      end_time := ln.finished
      max_fidelity_loss := ln.max_fidelity_loss
      max_fidelity_cost := ln.max_fidelity_cost })
  else .error "KeyError: config id"

/-- `Trace.load_hpbandster` (types.py lines 210-270): remap opaque config id
tuples to sequential integers in first-seen order, assign bracket indices by
the ascending rank of the distinct budgets, and sort by end time.  A result
line whose id has no configs entry is a `KeyError`.  Note there is no
zero-record check in this loader. -/
def Trace.load_hpbandster (configs : List (List Int)) (lines : List HpbandsterLine) :
    Except String Trace :=
  match exMapM (hpbandsterParse (firstSeen configs)
      (sortOn (fun b => b) (firstSeen (lines.map (fun ln => ln.budget))))) lines with
  | .error e => .error e
  | .ok parsed => .ok ⟨sortOn (fun r => r.end_time) parsed⟩

/-! ### Rank tables (`BenchmarkResults.ranks`, `ExperimentResults.ranks`)

A pandas DataFrame indexed by axis value with one column per algorithm is a
`Table`: `rows` is aligned with `idx`, and column `j` is the `j`-th
algorithm of the collection (`ExperimentResults.load` builds every benchmark
over the same algorithm list, so positional and name-based column alignment
agree).  `none` models NaN. -/

structure AlgorithmResults where
  traces : List (Int × Trace)

/-- `AlgorithmResults.select(seeds=[seed])`, a `KeyError` if absent. -/
def AlgorithmResults.lookupSeed (ar : AlgorithmResults) (s : Int) : Except String Trace :=
  match List.lookup s ar.traces with
  | none => .error "KeyError: seed"
  | some tr => .ok tr

structure BenchmarkResults where
  results : List (String × AlgorithmResults)

structure Table where
  idx : List ℚ
  rows : List (List (Option ℚ))

/-- Value of a series at index `x` (first match), NaN when absent. -/
def seriesLookup (s : List (ℚ × ℚ)) (x : ℚ) : Option ℚ :=
  (s.find? (fun p => p.1 == x)).map Prod.snd

/-- `df.fillna(method="ffill")` along one column. -/
def ffillAux : Option ℚ → List (Option ℚ) → List (Option ℚ)
  | _, [] => []
  | prev, c :: l =>
    match c with
    | some v => some v :: ffillAux (some v) l
    | none => prev :: ffillAux prev l

def ffillCol (col : List (Option ℚ)) : List (Option ℚ) := ffillAux none col

/-- Sorted union without duplicates (a pandas outer-join index). -/
def dedupSortQ (l : List ℚ) : List ℚ := sortOn id (firstSeen l)

/-- `df.rank(method="average", axis=1)` on one row: a present value `v` gets
(number of smaller present values) + ((number of values equal to `v`) + 1)/2,
and NaN stays NaN. -/
def rankRow (row : List (Option ℚ)) : List (Option ℚ) :=
  row.map (fun c =>
    match c with
    | none => none
    | some v => some
        (((row.countP (fun c' => c'.any (fun w => decide (w < v)))) : ℚ) +
         (((row.countP (fun c' => c' == some v)) : ℚ) + 1) / 2))

/-- Outer-join the per-algorithm series on the sorted union of their indices
plus `extra`, then forward-fill each column (the pandas `concat` +
`df.loc[missing] = NaN` + `fillna(method="ffill")` steps). -/
def buildTable (seriesList : List (List (ℚ × ℚ))) (extra : List ℚ) : Table :=
  let baseIdx := dedupSortQ ((seriesList.map (fun s => s.map Prod.fst)).flatten ++ extra)
  let cols := seriesList.map (fun s => ffillCol (baseIdx.map (seriesLookup s)))
  ⟨baseIdx, (List.range baseIdx.length).map (fun i => cols.map (fun col => col.getD i none))⟩

/-- One algorithm's series inside `BenchmarkResults.ranks`: select the
seed's trace, take its incumbent trace (always over `loss`), and project it
onto `(xaxis, yaxis)`. -/
def algoSeries (xaxis yaxis : Result → ℚ) (seed : Int)
    (p : String × AlgorithmResults) : Except String (List (ℚ × ℚ)) :=
  match AlgorithmResults.lookupSeed p.2 seed with
  | .error e => .error e
  | .ok tr =>
    match tr.incumbent_trace xaxis "loss" with
    | .error e => .error e
    | .ok inc => .ok (inc.series xaxis yaxis)

/-- The aligned, forward-filled (but not yet ranked) value table of
`BenchmarkResults.ranks`. -/
def BenchmarkResults.ranksRaw (br : BenchmarkResults) (xaxis yaxis : Result → ℚ)
    (seed : Int) (indices : Option (List ℚ)) : Except String Table :=
  match exMapM (algoSeries xaxis yaxis seed) br.results with
  | .error e => .error e
  | .ok seriesList => .ok (buildTable seriesList (indices.getD []))

/-- `BenchmarkResults.ranks` (types.py lines 780-834): the raw table ranked
row-wise with average tie-breaking, lower loss first. -/
def BenchmarkResults.ranks (br : BenchmarkResults) (xaxis yaxis : Result → ℚ)
    (seed : Int) (indices : Option (List ℚ)) : Except String Table :=
  match br.ranksRaw xaxis yaxis seed indices with
  | .error e => .error e
  | .ok T => .ok ⟨T.idx, T.rows.map rankRow⟩

structure ExperimentResults where
  algorithms : List String
  benchmarks : List String
  results : List (String × BenchmarkResults)

/-- `ExperimentResults.indices(xaxis)`: every record's axis value across the
whole hierarchy (the set-union; duplicates are collapsed downstream). -/
def ExperimentResults.indicesAll (E : ExperimentResults) (xaxis : Result → ℚ) : List ℚ :=
  ((E.results.map (fun bp =>
      ((bp.2.results.map (fun ap =>
          ((ap.2.traces.map (fun st => st.2.results.map xaxis)).flatten))).flatten))).flatten)

/-- `ExperimentResults.seeds()`: the union of the observed seeds. -/
def ExperimentResults.seedsAll (E : ExperimentResults) : List Int :=
  sortOn (fun s => s)
    (firstSeen (((E.results.map (fun bp =>
        (bp.2.results.map (fun ap => ap.2.traces.map Prod.fst)).flatten))).flatten))

/-- The per-(benchmark, seed) rank tables of `ExperimentResults.ranks`, in
`itertools.product(benchmarks, seeds)` order, all aligned to the global
axis-value universe. -/
def ExperimentResults.pairTables (E : ExperimentResults) (xaxis yaxis : Result → ℚ) :
    Except String (List Table) :=
  let indices := E.indicesAll xaxis
  exMapM (fun bs : String × Int =>
      match List.lookup bs.1 E.results with
      | none => .error "KeyError: benchmark"
      | some br => br.ranks xaxis yaxis bs.2 (some indices))
    ((E.benchmarks.map (fun b => E.seedsAll.map (fun s => (b, s)))).flatten)

def optAdd : Option ℚ → Option ℚ → Option ℚ
  | some a, some b => some (a + b)
  | _, _ => none

/-- `DataFrame + DataFrame` on identically-aligned tables (NaN propagates). -/
def Table.add (t u : Table) : Table :=
  ⟨t.idx, List.zipWith (List.zipWith optAdd) t.rows u.rows⟩

def Table.divN (t : Table) (n : ℚ) : Table :=
  ⟨t.idx, t.rows.map (List.map (Option.map (fun v => v / n)))⟩

/-- `reduce(operator.add, tables) / len(tables)`. -/
def meanTables : List Table → Except String Table
  | [] => .error "TypeError: reduce of empty sequence"
  | T :: Ts => .ok ((Ts.foldl Table.add T).divN ((T :: Ts).length : ℚ))

def ExperimentResults.ranksMeans (E : ExperimentResults) (xaxis yaxis : Result → ℚ) :
    Except String Table :=
  match E.pairTables xaxis yaxis with
  | .error e => .error e
  | .ok tables => meanTables tables

def sampleMean (l : List ℚ) : ℚ := l.sum / (l.length : ℚ)

/-- Sample variance with one delta degree of freedom (`pandas.std(ddof=1)²`). -/
def sampleVar (l : List ℚ) : ℚ :=
  ((l.map (fun x => (x - sampleMean l) ^ 2)).sum) / ((l.length : ℚ) - 1)

/-- `Series.sem()`: sample standard deviation over √n, NaN for n < 2
(matching pandas, whose ddof=1 standard deviation of a singleton is NaN). -/
noncomputable def semSE (l : List ℚ) : Option ℝ :=
  if l.length < 2 then none
  else some (Real.sqrt ((sampleVar l : ℚ) : ℝ) / Real.sqrt ((l.length : ℕ) : ℝ))

/-- The values (skipping NaN) of column `j` at row `i` across tables. -/
def colSamples (tables : List Table) (i j : Nat) : List ℚ :=
  tables.filterMap (fun T => (T.rows.getD i []).getD j none)

/-- The standard-error table of `ExperimentResults.ranks` (one column per
algorithm, one row per global axis value). -/
noncomputable def stdsOf (tables : List Table) (nRows nAlgos : Nat) :
    List (List (Option ℝ)) :=
  (List.range nRows).map (fun i =>
    (List.range nAlgos).map (fun j => semSE (colSamples tables i j)))

noncomputable def ExperimentResults.ranksStds (E : ExperimentResults)
    (xaxis yaxis : Result → ℚ) : Except String (List (List (Option ℝ))) :=
  match E.pairTables xaxis yaxis with
  | .error e => .error e
  | .ok tables =>
    match tables with
    | [] => .ok []
    | T :: _ => .ok (stdsOf tables T.idx.length E.algorithms.length)

/-- `ExperimentResults.ranks` (types.py lines 1114-1141): the element-wise
mean of all per-(benchmark, seed) rank tables, and the per-algorithm
standard error of the mean across those tables. -/
noncomputable def ExperimentResults.ranks (E : ExperimentResults)
    (xaxis yaxis : Result → ℚ) :
    Except String (Table × List (List (Option ℝ))) :=
  match E.ranksMeans xaxis yaxis with
  | .error e => .error e
  | .ok means =>
    match E.ranksStds xaxis yaxis with
    | .error e => .error e
    | .ok stds => .ok (means, stds)

/-! ## Verification -/

/-! ### C9: axis rescaling is a linear transform that round-trips -/

theorem rescale_step_ok {ax : Axis} {r : Result} {v : ℚ} (c : ℚ)
    (h : axGet ax r = some v) :
    (match axGet ax r with
      | none => Except.error "TypeError: unsupported operand type"
      | some v => Except.ok (axSet ax (v * c) r)) = .ok (axSet ax (v * c) r) := by
  rw [h]

theorem rescale_xaxis_ok {t : Trace} {ax : Axis} (c : ℚ)
    (h : ∀ r ∈ t.results, (axGet ax r).isSome) :
    t.rescale_xaxis c ax =
      .ok ⟨sortOn (fun r => (axGet ax r).getD 0)
        (t.results.map (fun r => axSet ax ((axGet ax r).getD 0 * c) r))⟩ := by
  unfold Trace.rescale_xaxis
  rw [exMapM_ok_of_forall (g := fun r => axSet ax ((axGet ax r).getD 0 * c) r)]
  intro r hr
  obtain ⟨v, hv⟩ := Option.isSome_iff_exists.1 (h r hr)
  rw [hv]
  simp [hv]

/-- C9: for every Trace, every axis and every nonzero scalar `c`,
`rescale_xaxis(axis, c)` multiplies every record's axis value by `c`
(up to the re-sort, the results are the records with the axis field scaled),
and applying `rescale_xaxis(axis, 1/c)` afterwards reproduces the original
records exactly (as a permutation, since each rescale re-sorts). -/
theorem C9_rescale_linear_roundtrip (t : Trace) (ax : Axis) (c : ℚ)
    (hc : c ≠ 0) (h : ∀ r ∈ t.results, (axGet ax r).isSome) :
    ∃ t₁ t₂, t.rescale_xaxis c ax = .ok t₁ ∧
      t₁.rescale_xaxis (1 / c) ax = .ok t₂ ∧
      List.Perm t₁.results
        (t.results.map (fun r => axSet ax ((axGet ax r).getD 0 * c) r)) ∧
      List.Perm t₂.results t.results := by
  refine ⟨_, _, rescale_xaxis_ok c h, rescale_xaxis_ok (1 / c) ?_, sortOn_perm _ _, ?_⟩
  · intro r hr
    rw [mem_sortOn] at hr
    obtain ⟨s, _, rfl⟩ := List.mem_map.1 hr
    rw [axGet_axSet]
    rfl
  · have hperm1 : List.Perm
        (sortOn (fun r => (axGet ax r).getD 0)
          (t.results.map (fun r => axSet ax ((axGet ax r).getD 0 * c) r)))
        (t.results.map (fun r => axSet ax ((axGet ax r).getD 0 * c) r)) :=
      sortOn_perm _ _
    refine (sortOn_perm _ _).trans ?_
    refine ((hperm1.map (fun r => axSet ax ((axGet ax r).getD 0 * (1 / c)) r)).trans ?_)
    rw [List.map_map]
    have hfix : ∀ r ∈ t.results,
        ((fun r => axSet ax ((axGet ax r).getD 0 * (1 / c)) r) ∘
         (fun r => axSet ax ((axGet ax r).getD 0 * c) r)) r = id r := by
      intro r hr
      obtain ⟨v, hv⟩ := Option.isSome_iff_exists.1 (h r hr)
      simp only [Function.comp_apply, id_eq, axGet_axSet, hv, Option.getD_some]
      have hval : v * c * (1 / c) = v := by
        field_simp
      rw [hval, axSet_axSet, axSet_axGet_self hv]
    rw [List.map_congr_left hfix, List.map_id]

/-- Witness for C9 at a concrete input: a one-record trace rescaled by 2 on
the cost axis. -/
def witnessResult : Result :=
  .mk { id := 0, bracket := none, loss := 1, cost := 3, val_score := 0,
        test_score := 0, fidelity := 1, start_time := 0, end_time := 1,
        max_fidelity_loss := 0, max_fidelity_cost := 0 }

theorem C9_witness :
    (2:ℚ) ≠ 0 ∧
    ∃ t₁ t₂, (Trace.mk [witnessResult]).rescale_xaxis 2 .cost = .ok t₁ ∧
      t₁.rescale_xaxis (1 / 2) .cost = .ok t₂ ∧
      List.Perm t₁.results
        ([witnessResult].map (fun r => axSet .cost ((axGet .cost r).getD 0 * 2) r)) ∧
      List.Perm t₂.results [witnessResult] :=
  ⟨by decide, C9_rescale_linear_roundtrip ⟨[witnessResult]⟩ .cost 2 (by decide)
    (by intro r hr; simp at hr; subst hr; rfl)⟩

/-! ### C1: continuation stitching preserves the record count -/

theorem exMapM_ok_exists {ε α β : Type} {f : α → Except ε β} :
    ∀ {l : List α}, (∀ x ∈ l, ∃ y, f x = .ok y) →
      ∃ out, exMapM f l = .ok out ∧ out.length = l.length := by
  intro l
  induction l with
  | nil => intro _; exact ⟨[], rfl, rfl⟩
  | cons a l ih =>
    intro h
    obtain ⟨y, hy⟩ := h a (List.mem_cons_self _ _)
    obtain ⟨out, hout, hlen⟩ := ih (fun x hx => h x (List.mem_cons_of_mem _ hx))
    refine ⟨y :: out, ?_, by simp [hlen]⟩
    rw [exMapM, hy, hout]

theorem exMapM_get {ε α β : Type} {f : α → Except ε β} :
    ∀ {l : List α} {out : List β}, exMapM f l = .ok out →
      ∀ (i : Nat) (h1 : i < l.length) (h2 : i < out.length),
        f (l.get ⟨i, h1⟩) = .ok (out.get ⟨i, h2⟩) := by
  intro l
  induction l with
  | nil => intro out h i h1 _; exact absurd h1 (by simp)
  | cons a l ih =>
    intro out h i h1 h2
    rw [exMapM] at h
    rcases ha : f a with e | b <;> rw [ha] at h
    · exact absurd h (by simp)
    · rcases hl : exMapM f l with e | bs <;> rw [hl] at h
      · exact absurd h (by simp)
      · simp only [Except.ok.injEq] at h
        subst h
        cases i with
        | zero => simpa using ha
        | succ i =>
          exact ih hl i (Nat.lt_of_succ_lt_succ h1) (Nat.lt_of_succ_lt_succ h2)

theorem list_sum_map_length_eq {α : Type} :
    ∀ {l₁ l₂ : List (List α)}, l₁.length = l₂.length →
      (∀ (i : Nat) (h1 : i < l₁.length) (h2 : i < l₂.length),
        (l₁.get ⟨i, h1⟩).length = (l₂.get ⟨i, h2⟩).length) →
      (l₁.map List.length).sum = (l₂.map List.length).sum := by
  intro l₁
  induction l₁ with
  | nil =>
    intro l₂ hlen _
    have : l₂ = [] := List.length_eq_zero.1 hlen.symm
    subst this; rfl
  | cons a l ih =>
    intro l₂ hlen h
    cases l₂ with
    | nil => exact absurd hlen (by simp)
    | cons b l₂' =>
      simp only [List.map_cons, List.sum_cons]
      have h0 := h 0 (by simp) (by simp)
      simp only [List.get] at h0
      rw [h0]
      congr 1
      refine ih (by simpa using hlen) ?_
      intro i h1 h2
      have := h (i + 1) (by simpa using Nat.succ_lt_succ h1) (by simpa using Nat.succ_lt_succ h2)
      simpa using this

theorem continue_from_ok {self : Result} (other : Result)
    (h : self.continued_from = none) :
    self.continue_from other = .ok (.mk { self.fields with
      fidelity := self.fidelity - other.fidelity
      cost := self.cost - other.cost
      continued_from := some other }) := by
  unfold Result.continue_from
  rw [h]

theorem stitchGroup_ok {g : List Result}
    (h : ∀ x ∈ g, x.continued_from = none) :
    ∃ out, stitchGroup g = .ok out ∧ out.length = g.length := by
  cases g with
  | nil => exact ⟨[], rfl, rfl⟩
  | cons a rest =>
    have hmap : ∀ p ∈ (a :: rest).zip rest, ∃ y, Result.continue_from p.2 p.1 = .ok y := by
      intro p hp
      have h2 : p.2 ∈ rest := (List.of_mem_zip hp).2
      exact ⟨_, continue_from_ok p.1 (h p.2 (List.mem_cons_of_mem _ h2))⟩
    obtain ⟨conts, hconts, hlen⟩ := exMapM_ok_exists hmap
    refine ⟨a :: conts, ?_, ?_⟩
    · rw [stitchGroup, hconts]
    · simp only [List.length_cons, hlen, List.length_zip, List.length_cons]
      omega

theorem stitchGroup_length {g out : List Result} (h : stitchGroup g = .ok out) :
    out.length = g.length := by
  cases g with
  | nil =>
    simp only [stitchGroup, Except.ok.injEq] at h
    simp [← h]
  | cons a rest =>
    rw [stitchGroup] at h
    rcases hm : exMapM (fun p => Result.continue_from p.2 p.1) ((a :: rest).zip rest)
      with e | conts <;> rw [hm] at h
    · exact absurd h (by simp)
    · simp only [Except.ok.injEq] at h
      subst h
      have := exMapM_ok_length hm
      simp only [List.length_cons, this, List.length_zip, List.length_cons]
      omega

/-- C1: on any trace whose records carry no prior continuation reference
(the operation's own assertion), `with_continuations` succeeds, returns
exactly one output record per input record, and its output is sorted by end
timestamp ascending. -/
theorem C1_stitching_preserves_count (t : Trace)
    (h : t.results.all (fun r => r.continued_from.isNone) = true) :
    ∃ t', t.with_continuations = .ok t' ∧
      t'.results.length = t.results.length ∧
      List.Sorted (keyLE (fun r => r.end_time)) t'.results := by
  have hnone : ∀ r ∈ t.results, r.continued_from = none := by
    intro r hr
    have := List.all_eq_true.1 h r hr
    exact Option.isNone_iff_eq_none.1 this
  set trace_results := sortOn (fun r => r.id) t.results with htr
  have hmem : ∀ g ∈ (runsBy (fun a b => a.id == b.id) trace_results).map (sortOn bracketKey),
      ∀ x ∈ g, x.continued_from = none := by
    intro g hg x hx
    obtain ⟨g0, hg0, rfl⟩ := List.mem_map.1 hg
    have hx0 : x ∈ g0 := (mem_sortOn _).1 hx
    have : x ∈ trace_results := mem_of_mem_runsBy hg0 hx0
    exact hnone x ((sortOn_perm _ _).mem_iff.1 this)
  have hstitch : ∀ g ∈ (runsBy (fun a b => a.id == b.id) trace_results).map (sortOn bracketKey),
      ∃ out, stitchGroup g = .ok out := by
    intro g hg
    obtain ⟨out, hout, _⟩ := stitchGroup_ok (hmem g hg)
    exact ⟨out, hout⟩
  obtain ⟨stitched, hst, hstlen⟩ := exMapM_ok_exists hstitch
  have hflatlen : stitched.flatten.length = trace_results.length := by
    have hpointwise : ∀ (i : Nat) (h2 : i < stitched.length)
        (h1 : i < ((runsBy (fun a b => a.id == b.id) trace_results).map
          (sortOn bracketKey)).length),
        (stitched.get ⟨i, h2⟩).length = (((runsBy (fun a b => a.id == b.id) trace_results).map
          (sortOn bracketKey)).get ⟨i, h1⟩).length := by
      intro i h2 h1
      exact stitchGroup_length (exMapM_get hst i h1 h2)
    calc stitched.flatten.length = (stitched.map List.length).sum := by
            rw [List.length_flatten]
      _ = (((runsBy (fun a b => a.id == b.id) trace_results).map
            (sortOn bracketKey)).map List.length).sum :=
            list_sum_map_length_eq hstlen hpointwise
      _ = ((runsBy (fun a b => a.id == b.id) trace_results).map List.length).sum := by
            rw [List.map_map]
            exact congrArg List.sum (List.map_congr_left
              (fun g _ => sortOn_length bracketKey g))
      _ = (runsBy (fun a b => a.id == b.id) trace_results).flatten.length := by
            rw [List.length_flatten]
      _ = trace_results.length := by rw [runsBy_join]
  refine ⟨⟨sortOn (fun r => r.end_time) stitched.flatten⟩, ?_, ?_, sortOn_sorted _ _⟩
  · unfold Trace.with_continuations
    rw [← htr, hst]
    exact if_pos hflatlen.symm
  · simp only [sortOn_length, hflatlen, htr, sortOn_length]

/-- Witness for C1: the three-record trace of §8 scenario A. -/
def mkScenarioResult (id : Int) (bracket : Option Int) (loss : ℚ) (fid : Int)
    (et : ℚ) : Result :=
  .mk { id := id, bracket := bracket, loss := loss, cost := 0,
        val_score := 0, test_score := 0, fidelity := fid,
        start_time := 0, end_time := et, max_fidelity_loss := 0,
        max_fidelity_cost := 0 }

def traceScenA : Trace :=
  ⟨[mkScenarioResult 0 (some 0) (9/10) 1 10,
    mkScenarioResult 0 (some 1) (1/2) 3 20,
    mkScenarioResult 0 (some 2) (1/5) 5 30]⟩

theorem C1_witness :
    (traceScenA.results.all (fun r => r.continued_from.isNone) = true) ∧
    ∃ t', traceScenA.with_continuations = .ok t' ∧
      t'.results.length = traceScenA.results.length ∧
      List.Sorted (keyLE (fun r => r.end_time)) t'.results :=
  ⟨by decide, C1_stitching_preserves_count traceScenA (by decide)⟩

/-! ### C2: the content of one stitched record, and scenario A -/

/-- C2: a stitched pair `(lower, higher)` yields a record whose fidelity and
cost are the deltas `higher - lower`, whose `continued_from` is `lower`, and
whose remaining fields are those of `higher`; and the three-record group of
scenario A (fidelities 1,3,5 at brackets 0,1,2) stitches to fidelities
1,2,2, with the lowest-bracket record kept unchanged and each later record
continuing from its predecessor. -/
theorem C2_stitching_produces_deltas :
    (∀ lower higher : Result, higher.continued_from = none →
      ∃ r, higher.continue_from lower = .ok r ∧
        r.fidelity = higher.fidelity - lower.fidelity ∧
        r.cost = higher.cost - lower.cost ∧
        r.continued_from = some lower ∧
        r.id = higher.id ∧ r.bracket = higher.bracket ∧
        r.loss = higher.loss ∧ r.val_score = higher.val_score ∧
        r.test_score = higher.test_score ∧
        r.start_time = higher.start_time ∧ r.end_time = higher.end_time ∧
        r.max_fidelity_loss = higher.max_fidelity_loss ∧
        r.max_fidelity_cost = higher.max_fidelity_cost ∧
        r.cumulated_fidelity = higher.cumulated_fidelity ∧
        r.process_id = higher.process_id) ∧
    (traceScenA.with_continuations).map (fun t => t.results.map (fun r => r.fidelity))
      = .ok [1, 2, 2] ∧
    (traceScenA.with_continuations).map (fun t => t.results.map (fun r => r.bracket))
      = .ok [some 0, some 1, some 2] ∧
    (traceScenA.with_continuations).map
        (fun t => t.results.map (fun r => r.continued_from.map (fun p => p.bracket)))
      = .ok [none, some (some 0), some (some 1)] ∧
    (traceScenA.with_continuations).map
        (fun t => t.results.map (fun r => r.loss))
      = .ok [9/10, 1/2, 1/5] ∧
    (traceScenA.with_continuations).map (fun t => t.results.head?)
      = .ok (some (mkScenarioResult 0 (some 0) (9/10) 1 10)) := by
  refine ⟨?_, by with_unfolding_all rfl, by with_unfolding_all rfl,
    by with_unfolding_all rfl, by with_unfolding_all rfl, by with_unfolding_all rfl⟩
  intro lower higher h
  exact ⟨_, continue_from_ok lower h, rfl, rfl, rfl, rfl, rfl, rfl, rfl, rfl,
    rfl, rfl, rfl, rfl, rfl, rfl⟩

/-! ### C3: single-worker cumulative fidelity is the running prefix sum -/

theorem accumFrom_length (acc : Int) :
    ∀ l : List Int, (accumFrom acc l).length = l.length := by
  intro l
  induction l generalizing acc with
  | nil => rfl
  | cons x xs ih => simp [accumFrom, ih]

theorem accumFrom_get :
    ∀ (l : List Int) (acc : Int) (i : Nat) (h : i < (accumFrom acc l).length),
      (accumFrom acc l).get ⟨i, h⟩ = acc + ((l.take (i + 1)).sum) := by
  intro l
  induction l with
  | nil => intro acc i h; exact absurd h (by simp [accumFrom])
  | cons x xs ih =>
    intro acc i h
    cases i with
    | zero => simp [accumFrom]
    | succ i =>
      have h' : i < (accumFrom (acc + x) xs).length := by
        simpa [accumFrom] using h
      calc (accumFrom acc (x :: xs)).get ⟨i + 1, h⟩
          = (accumFrom (acc + x) xs).get ⟨i, h'⟩ := rfl
        _ = (acc + x) + ((xs.take (i + 1)).sum) := ih (acc + x) i h'
        _ = acc + (((x :: xs).take (i + 2)).sum) := by
            simp [List.take, List.sum_cons]
            ring

def traceScenB : Trace :=
  ⟨[mkScenarioResult 0 none 1 1 1,
    mkScenarioResult 1 none 1 1 2,
    mkScenarioResult 2 none 1 3 3,
    mkScenarioResult 3 none 1 1 4,
    mkScenarioResult 4 none 1 9 5]⟩

/-- C3: when all records share one worker id (here: all absent), cumulative
fidelity succeeds, keeps one record per input record in end-time order, and
sets each record's `cumulated_fidelity` to the running sum of the `fidelity`
field over the end-time-sorted records up to and including it; in
particular raw fidelities `[1,1,3,1,9]` cumulate to `[1,2,5,6,15]`. -/
theorem C3_cumulative_fidelity_prefix_sum (t : Trace)
    (h : allEqual (t.results.map (fun r => r.process_id)) = true) :
    ∃ t', t.with_cumulative_fidelity none "loss" = .ok t' ∧
      t'.results.length = t.results.length ∧
      (∀ (i : Nat) (h1 : i < t'.results.length)
        (h2 : i < (sortOn (fun r => r.end_time) t.results).length),
        t'.results.get ⟨i, h1⟩ =
          ((sortOn (fun r => r.end_time) t.results).get ⟨i, h2⟩).withCumulated
            (some (((((sortOn (fun r => r.end_time) t.results).map
              (fun r => r.fidelity)).take (i + 1)).sum : Int) : ℚ))) ∧
      (traceScenB.with_cumulative_fidelity none "loss").map
        (fun tr => tr.results.map (fun r => r.cumulated_fidelity))
        = .ok [some 1, some 2, some 5, some 6, some 15] := by
  have hok : t.with_cumulative_fidelity none "loss" =
      .ok ⟨((sortOn (fun r => r.end_time) t.results).zip
        (accumulate ((sortOn (fun r => r.end_time) t.results).map (fun r => r.fidelity)))).map
        (fun p => p.1.withCumulated (some (p.2 : ℚ)))⟩ := by
    unfold Trace.with_cumulative_fidelity
    rw [if_pos (Or.inl rfl)]
    unfold Trace.cumulateSingle
    rw [if_pos h]
  refine ⟨_, hok, ?_, ?_, by with_unfolding_all rfl⟩
  · simp only [List.length_map, List.length_zip, accumulate, accumFrom_length,
      List.length_map, sortOn_length, Nat.min_self]
  · intro i h1 h2
    have hlen : i < (((sortOn (fun r => r.end_time) t.results).zip
        (accumulate ((sortOn (fun r => r.end_time) t.results).map
          (fun r => r.fidelity))))).length := by
      simpa using h1
    have hacc : i < (accumulate ((sortOn (fun r => r.end_time) t.results).map
        (fun r => r.fidelity))).length := by
      simp only [accumulate, accumFrom_length, List.length_map, sortOn_length]
      simpa [sortOn_length] using h2
    calc (Trace.results ⟨((sortOn (fun r => r.end_time) t.results).zip
          (accumulate ((sortOn (fun r => r.end_time) t.results).map (fun r => r.fidelity)))).map
          (fun p => p.1.withCumulated (some (p.2 : ℚ)))⟩).get ⟨i, h1⟩
        = (((sortOn (fun r => r.end_time) t.results).zip
          (accumulate ((sortOn (fun r => r.end_time) t.results).map
            (fun r => r.fidelity)))).get ⟨i, hlen⟩).1.withCumulated
          (some ((((sortOn (fun r => r.end_time) t.results).zip
            (accumulate ((sortOn (fun r => r.end_time) t.results).map
              (fun r => r.fidelity)))).get ⟨i, hlen⟩).2 : ℚ)) := by
          simp [List.get_eq_getElem, List.getElem_map]
      _ = ((sortOn (fun r => r.end_time) t.results).get ⟨i, h2⟩).withCumulated
          (some (((accumulate ((sortOn (fun r => r.end_time) t.results).map
            (fun r => r.fidelity))).get ⟨i, hacc⟩ : Int) : ℚ)) := by
          simp [List.get_eq_getElem, List.getElem_zip]
      _ = ((sortOn (fun r => r.end_time) t.results).get ⟨i, h2⟩).withCumulated
          (some (((((sortOn (fun r => r.end_time) t.results).map
            (fun r => r.fidelity)).take (i + 1)).sum : Int) : ℚ)) := by
          simp only [accumulate]
          rw [accumFrom_get]
          simp

theorem C3_witness :
    (allEqual (traceScenB.results.map (fun r => r.process_id)) = true) ∧
    ∃ t', traceScenB.with_cumulative_fidelity none "loss" = .ok t' ∧
      t'.results.length = traceScenB.results.length ∧
      (∀ (i : Nat) (h1 : i < t'.results.length)
        (h2 : i < (sortOn (fun r => r.end_time) traceScenB.results).length),
        t'.results.get ⟨i, h1⟩ =
          ((sortOn (fun r => r.end_time) traceScenB.results).get ⟨i, h2⟩).withCumulated
            (some (((((sortOn (fun r => r.end_time) traceScenB.results).map
              (fun r => r.fidelity)).take (i + 1)).sum : Int) : ℚ))) ∧
      (traceScenB.with_cumulative_fidelity none "loss").map
        (fun tr => tr.results.map (fun r => r.cumulated_fidelity))
        = .ok [some 1, some 2, some 5, some 6, some 15] :=
  ⟨by decide, C3_cumulative_fidelity_prefix_sum traceScenB (by decide)⟩

/-! ### C4 and C10: incumbent extraction -/

theorem incumbentLoop_sublist (inc : Result) :
    ∀ l : List Result, (incumbentLoop inc l).Sublist l := by
  intro l
  induction l generalizing inc with
  | nil => exact List.Sublist.refl _
  | cons r rs ih =>
    rw [incumbentLoop]
    by_cases h : r.loss < inc.loss
    · rw [if_pos h]
      exact List.Sublist.cons₂ r (ih r)
    · rw [if_neg h]
      exact List.Sublist.cons r (ih inc)

theorem incumbentLoop_chain (inc : Result) :
    ∀ l : List Result, List.Chain (fun a b => b.loss < a.loss) inc (incumbentLoop inc l) := by
  intro l
  induction l generalizing inc with
  | nil => exact List.Chain.nil
  | cons r rs ih =>
    rw [incumbentLoop]
    by_cases h : r.loss < inc.loss
    · rw [if_pos h]
      exact List.Chain.cons h (ih r)
    · rw [if_neg h]
      exact ih inc

theorem incumbent_trace_ok (t : Trace) (xaxis : Result → ℚ) (h : t.results ≠ []) :
    ∃ inc rest, sortOn xaxis t.results = inc :: rest ∧
      t.incumbent_trace xaxis "loss" = .ok ⟨inc :: incumbentLoop inc rest⟩ := by
  have hne : sortOn xaxis t.results ≠ [] := by
    intro hnil
    have := sortOn_length xaxis t.results
    rw [hnil] at this
    exact h (List.length_eq_zero.1 this.symm)
  rcases hs : sortOn xaxis t.results with _ | ⟨inc, rest⟩
  · exact absurd hs hne
  · refine ⟨inc, rest, rfl, ?_⟩
    unfold Trace.incumbent_trace
    rw [if_neg (by simp), hs]

/-- C4: on a non-empty trace, the incumbent trace over `loss` is a
subsequence of the x-axis-sorted records that starts at the record with the
smallest x-axis value, is itself sorted by the x-axis, and has strictly
decreasing losses (every kept record strictly improves on its
predecessor, and only improving records are kept). -/
theorem C4_incumbent_trace_strictly_improves (t : Trace) (xaxis : Result → ℚ)
    (h : 0 < t.results.length) :
    ∃ t', t.incumbent_trace xaxis "loss" = .ok t' ∧
      0 < t'.results.length ∧
      t'.results.Sublist (sortOn xaxis t.results) ∧
      t'.results.head? = (sortOn xaxis t.results).head? ∧
      List.Sorted (keyLE xaxis) t'.results ∧
      List.Chain' (fun a b => b.loss < a.loss) t'.results := by
  obtain ⟨inc, rest, hs, hok⟩ := incumbent_trace_ok t xaxis
    (by intro hnil; rw [hnil] at h; exact absurd h (by simp))
  refine ⟨_, hok, by simp, ?_, by rw [hs]; rfl, ?_, ?_⟩
  · rw [hs]
    exact List.Sublist.cons₂ inc (incumbentLoop_sublist inc rest)
  · have hsorted := sortOn_sorted xaxis t.results
    rw [hs] at hsorted
    exact List.Pairwise.sublist (List.Sublist.cons₂ inc (incumbentLoop_sublist inc rest))
      hsorted
  · exact incumbentLoop_chain inc rest

theorem C4_witness :
    (0 < traceScenA.results.length) ∧
    ∃ t', traceScenA.incumbent_trace (fun r => r.end_time) "loss" = .ok t' ∧
      0 < t'.results.length ∧
      t'.results.Sublist (sortOn (fun r => r.end_time) traceScenA.results) ∧
      t'.results.head? = (sortOn (fun r => r.end_time) traceScenA.results).head? ∧
      List.Sorted (keyLE (fun r => r.end_time)) t'.results ∧
      List.Chain' (fun a b => b.loss < a.loss) t'.results :=
  ⟨by decide, C4_incumbent_trace_strictly_improves traceScenA (fun r => r.end_time) (by decide)⟩

/-- C10: `incumbent_trace` silently assumes a non-empty trace: it succeeds
with a non-empty output on every non-empty trace, but fails with an
out-of-bounds error (rather than returning an empty trace) on an empty one
-- and an empty trace is reachable at this interface, e.g. from an
`in_range` filter that excludes every record. -/
theorem C10_incumbent_trace_empty_fails :
    (∀ (t : Trace) (xaxis : Result → ℚ), t.results = [] →
      t.incumbent_trace xaxis "loss" = .error "IndexError: list index out of range") ∧
    (∀ (t : Trace) (xaxis : Result → ℚ), t.results ≠ [] →
      ∃ t', t.incumbent_trace xaxis "loss" = .ok t' ∧ t'.results ≠ []) ∧
    ((traceScenA.in_range (100, 200) (fun r => r.end_time)).results = [] ∧
      (traceScenA.in_range (100, 200) (fun r => r.end_time)).incumbent_trace
        (fun r => r.end_time) "loss" = .error "IndexError: list index out of range") := by
  refine ⟨?_, ?_, by with_unfolding_all rfl, by with_unfolding_all rfl⟩
  · intro t xaxis h
    unfold Trace.incumbent_trace
    rw [if_neg (by simp), h]
    rfl
  · intro t xaxis h
    obtain ⟨inc, rest, _, hok⟩ := incumbent_trace_ok t xaxis h
    exact ⟨_, hok, by simp⟩

/-! ### C8: zero-record loading -/

/-- Counterexample to C8 as stated: an hpbandster-format unit with zero
result records loads successfully into an (empty) Trace instead of failing. -/
theorem C8_counterexample :
    Trace.load_hpbandster [] [] = .ok ⟨[]⟩ ∧
    (Trace.load_hpbandster [] []).map (fun t => t.results.length) = .ok 0 := by
  exact ⟨by with_unfolding_all rfl, by with_unfolding_all rfl⟩

/-- C8 (amended): the neps loader fails fatally exactly when the results
directory yields zero records; the hpbandster loader has no zero-record
check and yields one record per results-log line, so an empty log yields an
empty Trace rather than an error. -/
theorem C8_amended_zero_records :
    (∀ dirs : List NepsConfigDir, dirs = [] →
      Trace.load_neps dirs = .error "ValueError: could not find results") ∧
    (∀ dirs : List NepsConfigDir, dirs ≠ [] →
      ∃ t, Trace.load_neps dirs = .ok t ∧ t.results.length = dirs.length) ∧
    (∀ (configs : List (List Int)) (lines : List HpbandsterLine) (t : Trace),
      Trace.load_hpbandster configs lines = .ok t → t.results.length = lines.length) := by
  refine ⟨?_, ?_, ?_⟩
  · intro dirs h
    subst h
    rfl
  · intro dirs h
    cases dirs with
    | nil => exact absurd rfl h
    | cons d ds =>
      refine ⟨⟨sortOn (fun x => x.end_time)
        (((Result.from_dir d) :: ds.map Result.from_dir).map
          (fun x => x.withRelTimes (listMin (Result.from_dir d).start_time
            ((ds.map Result.from_dir).map (fun x => x.start_time)))))⟩, ?_, ?_⟩
      · unfold Trace.load_neps
        rw [List.map_cons]
      · simp [sortOn_length]
  · intro configs lines t h
    unfold Trace.load_hpbandster at h
    rcases hm : exMapM (hpbandsterParse (firstSeen configs)
        (sortOn (fun b => b) (firstSeen (lines.map (fun ln => ln.budget))))) lines
      with e | parsed <;> rw [hm] at h
    · exact absurd h (by simp)
    · simp only [Except.ok.injEq] at h
      subst h
      simp [sortOn_length, exMapM_ok_length hm]

/-! ### C7: multi-worker deduplication -/

instance : Inhabited Result :=
  ⟨.mk { id := 0, bracket := none, loss := 0, cost := 0, val_score := 0,
         test_score := 0, fidelity := 0, start_time := 0, end_time := 0,
         max_fidelity_loss := 0, max_fidelity_cost := 0 }⟩

theorem headI_mem {α : Type} [Inhabited α] {l : List α} (h : l ≠ []) : l.headI ∈ l := by
  cases l with
  | nil => exact absurd rfl h
  | cons a l => exact List.mem_cons_self _ _

theorem runsBy_head {α : Type} (R : α → α → Bool) :
    ∀ (b : α) (l : List α), ∃ g gs, runsBy R (b :: l) = (b :: g) :: gs := by
  intro b l
  induction l generalizing b with
  | nil => exact ⟨[], [], rfl⟩
  | cons c l' ih =>
    obtain ⟨g, gs, hg⟩ := ih c
    have hrw : runsBy R (b :: c :: l') =
        if R b c then (b :: c :: g) :: gs else [b] :: (c :: g) :: gs := by
      rw [runsBy, hg]
    rw [hrw]
    by_cases h : R b c
    · rw [if_pos h]; exact ⟨c :: g, gs, rfl⟩
    · rw [if_neg h]; exact ⟨[], (c :: g) :: gs, rfl⟩

theorem runsBy_congr {α : Type} {R S : α → α → Bool} :
    ∀ {l : List α}, (∀ a ∈ l, ∀ b ∈ l, R a b = S a b) → runsBy R l = runsBy S l := by
  intro l
  induction l with
  | nil => intro _; rfl
  | cons a l ih =>
    cases l with
    | nil => intro _; rfl
    | cons b l' =>
      intro h
      have hih := ih (fun x hx y hy =>
        h x (List.mem_cons_of_mem _ hx) y (List.mem_cons_of_mem _ hy))
      have hRS : R a b = S a b :=
        h a (List.mem_cons_self _ _) b (List.mem_cons_of_mem _ (List.mem_cons_self _ _))
      rw [runsBy]
      conv_rhs => rw [runsBy]
      rw [← hih]
      rcases hg : runsBy R (b :: l') with _ | ⟨g, gs⟩
      · rfl
      · rw [hRS]

/-- On a list sorted by the key `v`, the runs of equal-`v` elements have
strictly increasing key values, and each run collects exactly the elements
sharing its key. -/
theorem runsBy_sorted_spec {α β : Type} [Inhabited α] [LinearOrder β] (v : α → β) :
    ∀ l : List α, List.Sorted (keyLE v) l →
      List.Pairwise (fun g h => v g.headI < v h.headI)
        (runsBy (fun a b => v a == v b) l) ∧
      ∀ g ∈ runsBy (fun a b => v a == v b) l,
        g = l.filter (fun x => v x == v g.headI) := by
  intro l
  induction l with
  | nil => intro _; exact ⟨List.Pairwise.nil, by intro g hg; simp [runsBy] at hg⟩
  | cons a l ih =>
    cases l with
    | nil =>
      intro _
      refine ⟨by simp [runsBy], ?_⟩
      intro g hg
      simp only [runsBy, List.mem_singleton] at hg
      subst hg
      simp [List.headI]
    | cons b l' =>
      intro hs
      have hs' : List.Sorted (keyLE v) (b :: l') := hs.of_cons
      have hab : v a ≤ v b :=
        List.rel_of_sorted_cons hs b (List.mem_cons_self _ _)
      obtain ⟨pa, pb⟩ := ih hs'
      obtain ⟨g0, gs0, hg0⟩ := runsBy_head (fun a b => v a == v b) b l'
      rw [hg0] at pa
      have hrw : runsBy (fun a b => v a == v b) (a :: b :: l') =
          if (v a == v b) then (a :: b :: g0) :: gs0 else [a] :: (b :: g0) :: gs0 := by
        rw [runsBy, hg0]
      rw [hrw]
      have pa' := List.pairwise_cons.1 pa
      by_cases hvab : v a = v b
      · rw [if_pos (beq_iff_eq.2 hvab)]
        constructor
        · refine List.pairwise_cons.2 ⟨?_, pa'.2⟩
          intro h hh
          have := pa'.1 h hh
          simpa [List.headI, hvab] using this
        · intro g hg
          rcases List.mem_cons.1 hg with hg | hg
          · subst hg
            have fg0 : b :: g0 = (b :: l').filter (fun x => v x == v b) := by
              have := pb (b :: g0) (by rw [hg0]; exact List.mem_cons_self _ _)
              simpa [List.headI] using this
            simp only [List.headI]
            rw [List.filter_cons, if_pos (by simp)]
            congr 1
            rw [List.filter_congr (fun x _ => by rw [hvab]), ← fg0]
          · have gih := pb g (by rw [hg0]; exact List.mem_cons_of_mem _ hg)
            have hne : ¬(v a == v g.headI) = true := by
              have hlt : v b < v g.headI := pa'.1 g hg
              simp only [beq_iff_eq]
              rw [hvab]
              exact ne_of_lt hlt
            rw [List.filter_cons, if_neg hne, ← gih]
      · have hlt : v a < v b := lt_of_le_of_ne hab hvab
        rw [if_neg (by simp [hvab])]
        have hbelow : ∀ x ∈ b :: l', v b ≤ v x := by
          intro x hx
          rcases List.mem_cons.1 hx with hx | hx
          · subst hx; exact le_refl _
          · exact List.rel_of_sorted_cons hs' x hx
        constructor
        · refine List.pairwise_cons.2 ⟨?_, pa⟩
          intro h hh
          rcases List.mem_cons.1 hh with hh | hh
          · subst hh
            simpa [List.headI] using hlt
          · have := pa'.1 h hh
            simp only [List.headI] at this ⊢
            exact lt_trans hlt this
        · intro g hg
          rcases List.mem_cons.1 hg with hg | hg
          · subst hg
            simp only [List.headI]
            rw [List.filter_cons, if_pos (by simp)]
            have : (b :: l').filter (fun x => v x == v a) = [] := by
              rw [List.filter_eq_nil_iff]
              intro x hx
              have := hbelow x hx
              simp only [beq_iff_eq]
              exact fun hxa => absurd (hxa ▸ this) (not_le_of_lt hlt)
            rw [this]
          · have gih := pb g (by rw [hg0]; exact hg)
            have hgh : v a < v g.headI := by
              rcases List.mem_cons.1 hg with hg' | hg'
              · subst hg'
                simpa [List.headI] using hlt
              · exact lt_trans hlt (pa'.1 g hg')
            rw [List.filter_cons,
              if_neg (by simp only [beq_iff_eq]; exact fun hc => absurd hc (ne_of_lt hgh)),
              ← gih]

theorem foldl_min_spec {α : Type} (k : α → ℚ) :
    ∀ (lst : List α) (acc : α),
      ((lst.foldl (fun m x => if k x < k m then x else m) acc) = acc ∨
        (lst.foldl (fun m x => if k x < k m then x else m) acc) ∈ lst) ∧
      k (lst.foldl (fun m x => if k x < k m then x else m) acc) ≤ k acc ∧
      ∀ x ∈ lst, k (lst.foldl (fun m x => if k x < k m then x else m) acc) ≤ k x := by
  intro lst
  induction lst with
  | nil => exact fun acc => ⟨Or.inl rfl, le_refl _, by simp⟩
  | cons x xs ih =>
    intro acc
    simp only [List.foldl_cons]
    by_cases h : k x < k acc
    · rw [if_pos h]
      obtain ⟨hmem, hacc, hall⟩ := ih x
      refine ⟨?_, le_trans hacc (le_of_lt h), ?_⟩
      · rcases hmem with hmem | hmem
        · rw [hmem]; exact Or.inr (List.mem_cons_self _ _)
        · exact Or.inr (List.mem_cons_of_mem _ hmem)
      · intro y hy
        rcases List.mem_cons.1 hy with hy | hy
        · rw [hy]; exact hacc
        · exact hall y hy
    · rw [if_neg h]
      obtain ⟨hmem, hacc, hall⟩ := ih acc
      refine ⟨?_, hacc, ?_⟩
      · rcases hmem with hmem | hmem
        · exact Or.inl hmem
        · exact Or.inr (List.mem_cons_of_mem _ hmem)
      · intro y hy
        rcases List.mem_cons.1 hy with hy | hy
        · rw [hy]; exact le_trans hacc (le_of_not_lt h)
        · exact hall y hy

theorem minBy_ok {α : Type} {k : α → ℚ} :
    ∀ {lst : List α} {m : α}, minBy k lst = some m →
      m ∈ lst ∧ ∀ x ∈ lst, k m ≤ k x := by
  intro lst m h
  cases lst with
  | nil => exact absurd h (by simp [minBy])
  | cons a l =>
    simp only [minBy, Option.some.injEq] at h
    obtain ⟨hmem, hacc, hall⟩ := foldl_min_spec k l a
    subst h
    constructor
    · rcases hmem with hmem | hmem
      · rw [hmem]; exact List.mem_cons_self _ _
      · exact List.mem_cons_of_mem _ hmem
    · intro x hx
      rcases List.mem_cons.1 hx with hx | hx
      · rw [hx]; exact hacc
      · exact hall x hx

theorem minBy_ne_nil {α : Type} (k : α → ℚ) {lst : List α} (h : lst ≠ []) :
    ∃ m, minBy k lst = some m := by
  cases lst with
  | nil => exact absurd rfl h
  | cons a l => exact ⟨_, rfl⟩

theorem cumulated_fidelity_withCumulated (r : Result) (q : Option ℚ) :
    (r.withCumulated q).cumulated_fidelity = q := by
  cases r; rfl

theorem some_getD_of_isSome {o : Option ℚ} (h : o.isSome) : some (o.getD 0) = o := by
  cases o with
  | none => exact absurd h (by simp)
  | some a => rfl

theorem cumulateSingle_all_some {t t' : Trace} (h : Trace.cumulateSingle t = .ok t') :
    ∀ r ∈ t'.results, r.cumulated_fidelity.isSome := by
  unfold Trace.cumulateSingle at h
  by_cases hc : allEqual (t.results.map (fun r => r.process_id)) <;>
    [rw [if_pos hc] at h; rw [if_neg hc] at h]
  · simp only [Except.ok.injEq] at h
    subst h
    intro r hr
    obtain ⟨p, _, rfl⟩ := List.mem_map.1 hr
    rw [cumulated_fidelity_withCumulated]
    rfl
  · exact absurd h (by simp)

theorem cumulatePerWorker_all_some {t : Trace} {merged : List Result}
    (h : t.cumulatePerWorker = .ok merged) :
    ∀ r ∈ merged, r.cumulated_fidelity.isSome := by
  unfold Trace.cumulatePerWorker at h
  by_cases hc : t.results.all (fun r => r.process_id.isSome) <;>
    [rw [if_pos hc] at h; rw [if_neg hc] at h]
  · rcases hm : exMapM (fun g => Trace.cumulateSingle ⟨g⟩)
        (runsBy (fun a b => a.process_id == b.process_id)
          (sortOn (fun r => (r.process_id.getD 0)) t.results)) with e | cumTraces <;>
      rw [hm] at h
    · exact absurd h (by simp)
    · simp only [Except.ok.injEq] at h
      subst h
      intro r hr
      obtain ⟨rs, hrs, hrmem⟩ := List.mem_flatten.1 hr
      obtain ⟨tr, htr, rfl⟩ := List.mem_map.1 hrs
      obtain ⟨g, _, hok⟩ := exMapM_ok_mem hm tr htr
      exact cumulateSingle_all_some hok r hrmem
  · exact absurd h (by simp)

/-- The deduplication step of multi-worker cumulative fidelity: on records
that all carry a cumulated fidelity, the result is sorted by
`cumulated_fidelity`, has pairwise distinct `cumulated_fidelity` values,
keeps only minimum-loss representatives, and covers every input value. -/
theorem dedupByCumFid_spec {l : List Result}
    (hl : ∀ r ∈ l, r.cumulated_fidelity.isSome) :
    List.Sorted (keyLE (fun r => r.cumulated_fidelity.getD 0)) (dedupByCumFid l) ∧
    List.Pairwise (fun a b => a.cumulated_fidelity ≠ b.cumulated_fidelity)
      (dedupByCumFid l) ∧
    (∀ r ∈ dedupByCumFid l, r ∈ l ∧
      ∀ m ∈ l, m.cumulated_fidelity = r.cumulated_fidelity → r.loss ≤ m.loss) ∧
    (∀ m ∈ l, ∃ r ∈ dedupByCumFid l,
      r.cumulated_fidelity = m.cumulated_fidelity) := by
  have hsome : ∀ r ∈ sortOn (fun r => r.cumulated_fidelity.getD 0) l,
      r.cumulated_fidelity.isSome := fun r hr => hl r ((mem_sortOn _).1 hr)
  have hcumfid : ∀ r ∈ sortOn (fun r => r.cumulated_fidelity.getD 0) l,
      r.cumulated_fidelity = some (r.cumulated_fidelity.getD 0) :=
    fun r hr => (some_getD_of_isSome (hsome r hr)).symm
  have hcongr : runsBy (fun a b => a.cumulated_fidelity == b.cumulated_fidelity)
      (sortOn (fun r => r.cumulated_fidelity.getD 0) l) =
      runsBy (fun a b => (a.cumulated_fidelity.getD 0) == (b.cumulated_fidelity.getD 0))
      (sortOn (fun r => r.cumulated_fidelity.getD 0) l) := by
    apply runsBy_congr
    intro a ha b hb
    rw [hcumfid a ha, hcumfid b hb]
    rfl
  obtain ⟨hpair, hfilter⟩ := runsBy_sorted_spec (fun r => r.cumulated_fidelity.getD 0)
    (sortOn (fun r => r.cumulated_fidelity.getD 0) l) (sortOn_sorted _ _)
  have hkeyI : ∀ g ∈ runsBy
      (fun a b => (a.cumulated_fidelity.getD 0) == (b.cumulated_fidelity.getD 0))
      (sortOn (fun r => r.cumulated_fidelity.getD 0) l),
      ∀ x ∈ g, x.cumulated_fidelity.getD 0 = g.headI.cumulated_fidelity.getD 0 := by
    intro g hg x hx
    have := hfilter g hg
    rw [this] at hx
    exact beq_iff_eq.1 ((List.mem_filter.1 hx).2)
  have hmemg : ∀ g ∈ runsBy
      (fun a b => (a.cumulated_fidelity.getD 0) == (b.cumulated_fidelity.getD 0))
      (sortOn (fun r => r.cumulated_fidelity.getD 0) l),
      ∀ x ∈ g, x ∈ l := by
    intro g hg x hx
    exact (mem_sortOn _).1 (mem_of_mem_runsBy hg hx)
  have hsome' : ∀ g ∈ runsBy
      (fun a b => (a.cumulated_fidelity.getD 0) == (b.cumulated_fidelity.getD 0))
      (sortOn (fun r => r.cumulated_fidelity.getD 0) l),
      ∀ x ∈ g, x.cumulated_fidelity = some (x.cumulated_fidelity.getD 0) := by
    intro g hg x hx
    exact (some_getD_of_isSome (hl x (hmemg g hg x hx))).symm
  unfold dedupByCumFid
  rw [hcongr]
  refine ⟨sortOn_sorted _ _, ?_, ?_, ?_⟩
  · refine (List.Perm.pairwise_iff (fun h => Ne.symm h) (sortOn_perm _ _)).2 ?_
    refine List.pairwise_filterMap.2 ?_
    refine hpair.imp_of_mem ?_
    intro g g' hg hg' hlt m hm m' hm'
    have hminm := minBy_ok (Option.mem_def.1 hm)
    have hminm' := minBy_ok (Option.mem_def.1 hm')
    have hvm : m.cumulated_fidelity.getD 0 = g.headI.cumulated_fidelity.getD 0 :=
      hkeyI g hg m hminm.1
    have hvm' : m'.cumulated_fidelity.getD 0 = g'.headI.cumulated_fidelity.getD 0 :=
      hkeyI g' hg' m' hminm'.1
    rw [hsome' g hg m hminm.1, hsome' g' hg' m' hminm'.1, hvm, hvm']
    intro hcontra
    rw [Option.some.injEq] at hcontra
    exact absurd (hcontra ▸ hlt) (lt_irrefl _)
  · intro r hr
    obtain ⟨g, hg, hminr⟩ := List.mem_filterMap.1 ((mem_sortOn _).1 hr)
    obtain ⟨hrg, hmin⟩ := minBy_ok hminr
    refine ⟨hmemg g hg r hrg, ?_⟩
    intro m hm hcum
    have hms : m ∈ sortOn (fun r => r.cumulated_fidelity.getD 0) l := (mem_sortOn _).2 hm
    have hvm : m.cumulated_fidelity.getD 0 = r.cumulated_fidelity.getD 0 :=
      congrArg (fun o => o.getD 0) hcum
    have hvr : r.cumulated_fidelity.getD 0 = g.headI.cumulated_fidelity.getD 0 :=
      hkeyI g hg r hrg
    have hmg : m ∈ g := by
      rw [hfilter g hg]
      exact List.mem_filter.2 ⟨hms, by rw [beq_iff_eq, hvm, hvr]⟩
    exact hmin m hmg
  · intro m hm
    have hms : m ∈ sortOn (fun r => r.cumulated_fidelity.getD 0) l := (mem_sortOn _).2 hm
    rw [← runsBy_join
      (fun a b => (a.cumulated_fidelity.getD 0) == (b.cumulated_fidelity.getD 0))
      (sortOn (fun r => r.cumulated_fidelity.getD 0) l)] at hms
    obtain ⟨g, hg, hmg⟩ := List.mem_flatten.1 hms
    obtain ⟨r, hminr⟩ := minBy_ne_nil (fun r => r.loss) (runsBy_ne_nil _ _ g hg)
    refine ⟨r, (mem_sortOn _).2 (List.mem_filterMap.2 ⟨g, hg, hminr⟩), ?_⟩
    have hrg := (minBy_ok hminr).1
    rw [hsome' g hg r hrg, hsome' g hg m hmg, hkeyI g hg r hrg, hkeyI g hg m hmg]

/-- C7: in multi-worker mode, once the per-worker cumulation has produced
the merged records, requesting any deduplication metric other than `loss`
fails with the unsupported-configuration assertion (never silently
substituted), while with `loss` the output deduplicates equal
`cumulated_fidelity` groups down to their minimum-loss record and is sorted
by `cumulated_fidelity` ascending with pairwise distinct values. -/
theorem C7_multiworker_dedup_min_loss (t : Trace) (n : Option Nat) (yaxis : String)
    (hn : ¬(n = none ∨ n = some 1)) (merged : List Result)
    (hm : t.cumulatePerWorker = .ok merged) :
    (yaxis ≠ "loss" → t.with_cumulative_fidelity n yaxis =
      .error "AssertionError: yaxis is not supported right now") ∧
    t.with_cumulative_fidelity n "loss" = .ok ⟨dedupByCumFid merged⟩ ∧
    List.Sorted (keyLE (fun r => r.cumulated_fidelity.getD 0)) (dedupByCumFid merged) ∧
    List.Pairwise (fun a b => a.cumulated_fidelity ≠ b.cumulated_fidelity)
      (dedupByCumFid merged) ∧
    (∀ r ∈ dedupByCumFid merged, r ∈ merged ∧
      ∀ m ∈ merged, m.cumulated_fidelity = r.cumulated_fidelity → r.loss ≤ m.loss) ∧
    (∀ m ∈ merged, ∃ r ∈ dedupByCumFid merged,
      r.cumulated_fidelity = m.cumulated_fidelity) := by
  have hspec := dedupByCumFid_spec (cumulatePerWorker_all_some hm)
  refine ⟨?_, ?_, hspec.1, hspec.2.1, hspec.2.2.1, hspec.2.2.2⟩
  · intro hy
    unfold Trace.with_cumulative_fidelity
    rw [if_neg hn, hm]
    exact if_neg hy
  · unfold Trace.with_cumulative_fidelity
    rw [if_neg hn, hm]
    exact if_pos rfl

def workerResult (loss : ℚ) (fid : Int) (et : ℚ) (pid : Int) : Result :=
  .mk { id := 0, bracket := none, loss := loss, cost := 0, val_score := 0,
        test_score := 0, fidelity := fid, start_time := 0, end_time := et,
        max_fidelity_loss := 0, max_fidelity_cost := 0, process_id := some pid }

def traceScenC7 : Trace := ⟨[workerResult (1/2) 1 1 0, workerResult (1/4) 1 2 1]⟩

def mergedScenC7 : List Result :=
  [.mk { id := 0, bracket := none, loss := 1/2, cost := 0, val_score := 0,
         test_score := 0, fidelity := 1, start_time := 0, end_time := 1,
         max_fidelity_loss := 0, max_fidelity_cost := 0,
         cumulated_fidelity := some ((1 : Int) : ℚ), process_id := some 0 },
   .mk { id := 0, bracket := none, loss := 1/4, cost := 0, val_score := 0,
         test_score := 0, fidelity := 1, start_time := 0, end_time := 2,
         max_fidelity_loss := 0, max_fidelity_cost := 0,
         cumulated_fidelity := some ((1 : Int) : ℚ), process_id := some 1 }]

theorem C7_witness :
    (¬((some 2 : Option Nat) = none ∨ (some 2 : Option Nat) = some 1)) ∧
    ((("cost" : String) ≠ "loss" → traceScenC7.with_cumulative_fidelity (some 2) "cost" =
      .error "AssertionError: yaxis is not supported right now") ∧
    traceScenC7.with_cumulative_fidelity (some 2) "loss" = .ok ⟨dedupByCumFid mergedScenC7⟩ ∧
    List.Sorted (keyLE (fun r => r.cumulated_fidelity.getD 0)) (dedupByCumFid mergedScenC7) ∧
    List.Pairwise (fun a b => a.cumulated_fidelity ≠ b.cumulated_fidelity)
      (dedupByCumFid mergedScenC7) ∧
    (∀ r ∈ dedupByCumFid mergedScenC7, r ∈ mergedScenC7 ∧
      ∀ m ∈ mergedScenC7, m.cumulated_fidelity = r.cumulated_fidelity → r.loss ≤ m.loss) ∧
    (∀ m ∈ mergedScenC7, ∃ r ∈ dedupByCumFid mergedScenC7,
      r.cumulated_fidelity = m.cumulated_fidelity)) :=
  ⟨by decide,
   C7_multiworker_dedup_min_loss traceScenC7 (some 2) "cost" (by decide) mergedScenC7 rfl⟩

/-! ### C5: average-rank rows -/

/-- The average rank assigned by `rankRow` to the value `v` within the value
row `vs`. -/
def rankVal (vs : List ℚ) (v : ℚ) : ℚ :=
  ((vs.countP (fun w => decide (w < v))) : ℚ) +
    (((vs.countP (fun w => decide (w = v))) : ℚ) + 1) / 2

theorem list_map_sum_fin {α : Type} (g : α → ℚ) :
    ∀ l : List α, (l.map g).sum = ∑ i : Fin l.length, g (l.get i) := by
  intro l
  induction l with
  | nil => simp
  | cons a l ih =>
    rw [List.map_cons, List.sum_cons, ih]
    show g a + ∑ i : Fin l.length, g (l.get i) =
      ∑ i : Fin (l.length + 1), g ((a :: l).get i)
    rw [Fin.sum_univ_succ]
    simp

theorem countP_eq_sum_fin {α : Type} (p : α → Bool) :
    ∀ l : List α, ((l.countP p : ℕ) : ℚ) = ∑ i : Fin l.length, if p (l.get i) then (1:ℚ) else 0 := by
  intro l
  induction l with
  | nil => simp
  | cons a l ih =>
    rw [List.countP_cons]
    push_cast
    rw [ih]
    show (∑ i : Fin l.length, if p (l.get i) then (1:ℚ) else 0) +
        (if p a = true then (1:ℚ) else 0) =
      ∑ i : Fin (l.length + 1), if p ((a :: l).get i) then (1:ℚ) else 0
    rw [Fin.sum_univ_succ]
    simp only [List.get_cons_zero]
    have h3 : (∑ x : Fin l.length, if p ((a :: l).get x.succ) then (1:ℚ) else 0)
        = ∑ x : Fin l.length, if p (l.get x) then (1:ℚ) else 0 :=
      Finset.sum_congr rfl (fun x _ => rfl)
    rw [h3]
    ring

/-- The average ranks over any value row always sum to n(n+1)/2. -/
theorem rankVal_sum (vs : List ℚ) :
    (vs.map (rankVal vs)).sum = ((vs.length : ℚ) * ((vs.length : ℚ) + 1)) / 2 := by
  rw [list_map_sum_fin]
  have hsummand : ∀ i : Fin vs.length, rankVal vs (vs.get i) =
      (∑ j : Fin vs.length, if vs.get j < vs.get i then (1:ℚ) else 0) +
      ((∑ j : Fin vs.length, if vs.get j = vs.get i then (1:ℚ) else 0) + 1) / 2 := by
    intro i
    unfold rankVal
    rw [countP_eq_sum_fin, countP_eq_sum_fin]
    have h1 : (∑ j : Fin vs.length,
          if (fun w => decide (w < vs.get i)) (vs.get j) then (1:ℚ) else 0) =
        ∑ j : Fin vs.length, if vs.get j < vs.get i then (1:ℚ) else 0 :=
      Finset.sum_congr rfl (fun j _ => by simp)
    have h2 : (∑ j : Fin vs.length,
          if (fun w => decide (w = vs.get i)) (vs.get j) then (1:ℚ) else 0) =
        ∑ j : Fin vs.length, if vs.get j = vs.get i then (1:ℚ) else 0 :=
      Finset.sum_congr rfl (fun j _ => by simp)
    rw [h1, h2]
  rw [Finset.sum_congr rfl (fun i _ => hsummand i)]
  have hswap : ∑ i : Fin vs.length, ∑ j : Fin vs.length,
        (if vs.get j < vs.get i then (1:ℚ) else 0) =
      ∑ i : Fin vs.length, ∑ j : Fin vs.length,
        (if vs.get i < vs.get j then (1:ℚ) else 0) :=
    Finset.sum_comm
  have htri : ∀ i j : Fin vs.length,
      (if vs.get j < vs.get i then (1:ℚ) else 0) +
      (if vs.get i < vs.get j then (1:ℚ) else 0) +
      (if vs.get j = vs.get i then (1:ℚ) else 0) = 1 := by
    intro i j
    rcases lt_trichotomy (vs.get i) (vs.get j) with h | h | h
    · rw [if_neg (not_lt_of_lt h), if_pos h, if_neg (ne_of_gt h)]
      norm_num
    · rw [if_neg (by rw [h]; exact lt_irrefl _), if_neg (by rw [h]; exact lt_irrefl _),
        if_pos h.symm]
      norm_num
    · rw [if_pos h, if_neg (not_lt_of_lt h), if_neg (ne_of_lt h)]
      norm_num
  have htotal : (∑ i : Fin vs.length, ∑ j : Fin vs.length,
        (if vs.get j < vs.get i then (1:ℚ) else 0)) +
      (∑ i : Fin vs.length, ∑ j : Fin vs.length,
        (if vs.get i < vs.get j then (1:ℚ) else 0)) +
      (∑ i : Fin vs.length, ∑ j : Fin vs.length,
        (if vs.get j = vs.get i then (1:ℚ) else 0)) =
      (vs.length : ℚ) * (vs.length : ℚ) := by
    rw [← Finset.sum_add_distrib, ← Finset.sum_add_distrib]
    have : ∀ i : Fin vs.length,
        ((∑ j : Fin vs.length, (if vs.get j < vs.get i then (1:ℚ) else 0)) +
         (∑ j : Fin vs.length, (if vs.get i < vs.get j then (1:ℚ) else 0)) +
         (∑ j : Fin vs.length, (if vs.get j = vs.get i then (1:ℚ) else 0))) =
        (vs.length : ℚ) := by
      intro i
      rw [← Finset.sum_add_distrib, ← Finset.sum_add_distrib,
        Finset.sum_congr rfl (fun j _ => htri i j)]
      simp
    rw [Finset.sum_congr rfl (fun i _ => this i)]
    simp [mul_comm]
  rw [Finset.sum_add_distrib]
  have hdiv : (∑ i : Fin vs.length,
        ((∑ j : Fin vs.length, if vs.get j = vs.get i then (1:ℚ) else 0) + 1) / 2) =
      ((∑ i : Fin vs.length, ∑ j : Fin vs.length,
        (if vs.get j = vs.get i then (1:ℚ) else 0)) + (vs.length : ℚ)) / 2 := by
    rw [← Finset.sum_div]
    congr 1
    rw [Finset.sum_add_distrib]
    simp
  rw [hdiv]
  have hexpand : (vs.length : ℚ) * ((vs.length : ℚ) + 1) =
      (vs.length : ℚ) * (vs.length : ℚ) + (vs.length : ℚ) := by ring
  rw [hexpand]
  linarith [htotal, hswap]

theorem countP_lt_of_witness {α : Type} {p q : α → Bool} :
    ∀ {l : List α} {a : α}, a ∈ l → (∀ x ∈ l, p x = true → q x = true) →
      p a = false → q a = true → l.countP p < l.countP q := by
  intro l
  induction l with
  | nil => intro a ha; exact absurd ha (List.not_mem_nil a)
  | cons x xs ih =>
    intro a ha hpq hpa hqa
    rw [List.countP_cons, List.countP_cons]
    rcases List.mem_cons.1 ha with ha | ha
    · subst ha
      have hle : xs.countP p ≤ xs.countP q :=
        List.countP_mono_left (fun y hy => hpq y (List.mem_cons_of_mem _ hy))
      rw [hpa, hqa]
      simp only [Bool.false_eq_true, if_false, if_true]
      omega
    · have hlt := ih ha (fun y hy => hpq y (List.mem_cons_of_mem _ hy)) hpa hqa
      have hxpq := hpq x (List.mem_cons_self _ _)
      by_cases hx : p x = true
      · rw [hx, hxpq hx]
        omega
      · rw [Bool.not_eq_true] at hx
        rw [hx]
        simp only [Bool.false_eq_true, if_false]
        by_cases hqx : q x = true <;> simp [hqx] <;> omega

/-- With pairwise distinct values, average ranks are exactly a permutation
of 1..n. -/
theorem rankVal_nodup_perm (vs : List ℚ) (hnd : vs.Nodup) :
    (vs.map (rankVal vs)).Perm ((List.range vs.length).map (fun i : ℕ => ((i : ℚ) + 1))) := by
  have hcount : ∀ v ∈ vs, vs.countP (fun w => decide (w = v)) = 1 := by
    intro v hv
    have heqc : vs.countP (fun w => decide (w = v)) = vs.count v := by
      apply List.countP_congr
      intro w _
      by_cases h : w = v <;> simp [h]
    rw [heqc]
    exact List.count_eq_one_of_mem hnd hv
  have hrank : ∀ v ∈ vs, rankVal vs v =
      ((vs.countP (fun w => decide (w < v)) : ℕ) : ℚ) + 1 := by
    intro v hv
    unfold rankVal
    rw [hcount v hv]
    norm_num
  rw [List.map_congr_left hrank]
  have hmono : ∀ v ∈ vs, ∀ w ∈ vs, v < w →
      vs.countP (fun u => decide (u < v)) < vs.countP (fun u => decide (u < w)) := by
    intro v hv w _ hvw
    exact countP_lt_of_witness hv
      (fun u _ hu => by
        simp only [decide_eq_true_eq] at hu ⊢
        exact lt_trans hu hvw)
      (by simp) (by simp [hvw])
  have hndL : (vs.map (fun v => ((vs.countP (fun w => decide (w < v)) : ℕ) : ℚ) + 1)).Nodup := by
    refine List.Nodup.map_on ?_ hnd
    intro x hx y hy hxy
    by_contra hne
    have hc : vs.countP (fun u => decide (u < x)) = vs.countP (fun u => decide (u < y)) := by
      have := add_right_cancel hxy
      exact_mod_cast this
    rcases lt_or_gt_of_ne hne with h | h
    · exact absurd hc (Nat.ne_of_lt (hmono x hx y hy h))
    · exact absurd hc.symm (Nat.ne_of_lt (hmono y hy x hx h))
  have hndR : ((List.range vs.length).map (fun i : ℕ => ((i : ℚ) + 1))).Nodup := by
    refine List.Nodup.map_on ?_ (List.nodup_range _)
    intro x _ y _ hxy
    have := add_right_cancel hxy
    exact_mod_cast this
  have hbound : ∀ v ∈ vs, vs.countP (fun u => decide (u < v)) < vs.length := by
    intro v hv
    have := countP_lt_of_witness (p := fun u => decide (u < v)) (q := fun _ => true)
      hv (fun x _ _ => rfl) (by simp) rfl
    rwa [List.countP_true] at this
  apply List.perm_of_nodup_nodup_toFinset_eq hndL hndR
  refine Finset.eq_of_subset_of_card_le ?_ ?_
  · intro q hq
    rw [List.mem_toFinset] at hq ⊢
    obtain ⟨v, hv, rfl⟩ := List.mem_map.1 hq
    exact List.mem_map.2 ⟨vs.countP (fun u => decide (u < v)),
      List.mem_range.2 (hbound v hv), rfl⟩
  · rw [List.toFinset_card_of_nodup hndL, List.toFinset_card_of_nodup hndR]
    simp

theorem filterMap_id_map_some (vals : List ℚ) : (vals.map some).filterMap id = vals := by
  induction vals with
  | nil => rfl
  | cons v vs ih => simp [ih]

theorem beq_eq_decide (w v : ℚ) : (w == v) = decide (w = v) := by
  by_cases h : w = v <;> simp [h]

theorem rankRow_map_some (vals : List ℚ) :
    rankRow (vals.map some) = vals.map (fun v => some (rankVal vals v)) := by
  unfold rankRow
  rw [List.map_map]
  apply List.map_congr_left
  intro v _
  have h1 : (vals.map some).countP (fun c => c.any (fun w => decide (w < v)))
      = vals.countP (fun w => decide (w < v)) := by
    rw [List.countP_map]
    exact List.countP_congr (fun w _ => Iff.rfl)
  have h2 : (vals.map some).countP (fun c => c == some v)
      = vals.countP (fun w => decide (w = v)) := by
    rw [List.countP_map]
    exact List.countP_congr (fun w _ => by
      rw [show ((fun c => c == some v) ∘ some) w = (w == v) from rfl, beq_eq_decide])
  simp only [Function.comp_apply]
  unfold rankVal
  rw [← h1, ← h2]

theorem buildTable_row_length (sl : List (List (ℚ × ℚ))) (e : List ℚ) :
    ∀ row ∈ (buildTable sl e).rows, row.length = sl.length := by
  intro row hrow
  simp only [buildTable] at hrow
  obtain ⟨i, _, rfl⟩ := List.mem_map.1 hrow
  simp

theorem ranks_of_ranksRaw {br : BenchmarkResults} {xaxis yaxis : Result → ℚ}
    {seed : Int} {indices : Option (List ℚ)} {P : Table}
    (h : br.ranksRaw xaxis yaxis seed indices = .ok P) :
    br.ranks xaxis yaxis seed indices = .ok ⟨P.idx, P.rows.map rankRow⟩ := by
  unfold BenchmarkResults.ranks
  rw [h]

/-- C5 (amended): a per-seed rank table of `BenchmarkResults.ranks` is the
raw aligned table ranked row-wise; every row has one entry per algorithm;
and every row in which each algorithm has a present value sums to
k(k+1)/2, and is a permutation of 1..k when the underlying values have no
ties.  (Rows with a missing entry -- an algorithm with no value at or
before that axis value -- keep the missing rank and fall outside this.) -/
theorem C5_rank_rows (br : BenchmarkResults) (xaxis yaxis : Result → ℚ)
    (seed : Int) (indices : Option (List ℚ)) (P : Table)
    (h : br.ranksRaw xaxis yaxis seed indices = .ok P) :
    br.ranks xaxis yaxis seed indices = .ok ⟨P.idx, P.rows.map rankRow⟩ ∧
    (∀ row ∈ P.rows, row.length = br.results.length) ∧
    (∀ row ∈ P.rows, ∀ vals : List ℚ, row = vals.map some →
      ((rankRow row).filterMap id).sum =
        ((br.results.length : ℚ) * ((br.results.length : ℚ) + 1)) / 2 ∧
      (vals.Nodup → ((rankRow row).filterMap id).Perm
        ((List.range br.results.length).map (fun i : ℕ => ((i : ℚ) + 1))))) := by
  have hlen : ∀ row ∈ P.rows, row.length = br.results.length := by
    unfold BenchmarkResults.ranksRaw at h
    rcases hm : exMapM (algoSeries xaxis yaxis seed) br.results with e | sl <;> rw [hm] at h
    · exact absurd h (by simp)
    · simp only [Except.ok.injEq] at h
      subst h
      intro row hrow
      rw [buildTable_row_length _ _ row hrow, exMapM_ok_length hm]
  refine ⟨ranks_of_ranksRaw h, hlen, ?_⟩
  intro row hrow vals hveq
  have hrowlen : vals.length = br.results.length := by
    have := hlen row hrow
    rw [hveq] at this
    simpa using this
  subst hveq
  rw [rankRow_map_some,
    show (fun v => some (rankVal vals v)) = (some ∘ rankVal vals) from rfl,
    ← List.map_map, filterMap_id_map_some]
  constructor
  · rw [rankVal_sum, hrowlen]
  · intro hnd
    rw [← hrowlen]
    exact rankVal_nodup_perm vals hnd

/-- Scenario D fixture: two algorithms with full rows at both axis values. -/
def benchScenD : BenchmarkResults :=
  ⟨[("algo_a", ⟨[(0, ⟨[mkScenarioResult 0 none (1/2) 1 1,
                       mkScenarioResult 0 none (2/5) 1 3]⟩)]⟩),
    ("algo_b", ⟨[(0, ⟨[mkScenarioResult 1 none (3/5) 1 1,
                       mkScenarioResult 1 none (3/10) 1 3]⟩)]⟩)]⟩

theorem C5_witness :
    (benchScenD.ranksRaw (fun r => r.end_time) (fun r => r.loss) 0 none =
      .ok ⟨[1, 3], [[some (1/2), some (3/5)], [some (2/5), some (3/10)]]⟩) ∧
    (benchScenD.ranks (fun r => r.end_time) (fun r => r.loss) 0 none =
      .ok ⟨(⟨[1, 3], [[some (1/2), some (3/5)], [some (2/5), some (3/10)]]⟩ : Table).idx,
        (⟨[1, 3], [[some (1/2), some (3/5)], [some (2/5), some (3/10)]]⟩ : Table).rows.map rankRow⟩ ∧
    (∀ row ∈ (⟨[1, 3], [[some (1/2), some (3/5)], [some (2/5), some (3/10)]]⟩ : Table).rows,
      row.length = benchScenD.results.length) ∧
    (∀ row ∈ (⟨[1, 3], [[some (1/2), some (3/5)], [some (2/5), some (3/10)]]⟩ : Table).rows,
      ∀ vals : List ℚ, row = vals.map some →
      ((rankRow row).filterMap id).sum =
        ((benchScenD.results.length : ℚ) * ((benchScenD.results.length : ℚ) + 1)) / 2 ∧
      (vals.Nodup → ((rankRow row).filterMap id).Perm
        ((List.range benchScenD.results.length).map (fun i : ℕ => ((i : ℚ) + 1)))))) :=
  ⟨by with_unfolding_all rfl,
   C5_rank_rows benchScenD (fun r => r.end_time) (fun r => r.loss) 0 none
    ⟨[1, 3], [[some (1/2), some (3/5)], [some (2/5), some (3/10)]]⟩
    (by with_unfolding_all rfl)⟩

/-- Fixture with a leading gap: algorithm `algo_b` has no value at or before
the first axis value, so the first table row carries a missing entry. -/
def benchGap : BenchmarkResults :=
  ⟨[("algo_a", ⟨[(0, ⟨[mkScenarioResult 0 none (1/2) 1 1]⟩)]⟩),
    ("algo_b", ⟨[(0, ⟨[mkScenarioResult 1 none (3/10) 1 2]⟩)]⟩)]⟩

/-- Counterexample to C5 as stated: this per-seed rank table over k = 2
algorithms contains the row `[some 1, none]`, which has no tied values yet
is not a permutation of 1..2 and does not sum to 2·3/2 = 3. -/
theorem C5_counterexample :
    BenchmarkResults.ranks benchGap (fun r => r.end_time) (fun r => r.loss) 0 none
      = .ok ⟨[1, 2], [[some 1, none], [some 2, some 1]]⟩ ∧
    ¬ (([some (1:ℚ), none].filterMap id).sum = ((2:ℚ) * ((2:ℚ) + 1)) / 2) ∧
    ¬ (([some (1:ℚ), none].filterMap id).Perm
        ((List.range 2).map (fun i : ℕ => ((i : ℚ) + 1)))) := by
  have h0 : ([some (1:ℚ), none].filterMap id) = [1] := rfl
  refine ⟨by with_unfolding_all rfl, ?_, ?_⟩
  · rw [h0]
    simp
  · rw [h0]
    intro hperm
    have := hperm.length_eq
    simp at this

/-! ### C6: experiment-level aggregation -/

theorem lookup_mem {α β : Type} [BEq α] [LawfulBEq α] :
    ∀ {l : List (α × β)} {a : α} {b : β}, List.lookup a l = some b → (a, b) ∈ l := by
  intro l
  induction l with
  | nil => intro a b h; exact absurd h (by simp)
  | cons p l ih =>
    intro a b h
    rw [List.lookup] at h
    cases hab : a == p.1 with
    | true =>
      simp only [hab] at h
      have h1 : a = p.1 := eq_of_beq hab
      have h3 : p.2 = b := by
        simpa using h
      have h2 : (a, b) = p := by
        rw [h1, ← h3]
      rw [h2]
      exact List.mem_cons_self _ _
    | false =>
      simp only [hab] at h
      exact List.mem_cons_of_mem _ (ih h)

theorem mem_firstSeenAux {α : Type} [BEq α] [LawfulBEq α] :
    ∀ (l seen : List α) (x : α),
      x ∈ firstSeenAux seen l ↔ (x ∈ l ∧ ¬ x ∈ seen) := by
  intro l
  induction l with
  | nil => intro seen x; simp [firstSeenAux]
  | cons a l ih =>
    intro seen x
    rw [firstSeenAux]
    by_cases hc : seen.contains a
    · rw [if_pos hc]
      rw [ih]
      constructor
      · exact fun ⟨h1, h2⟩ => ⟨List.mem_cons_of_mem _ h1, h2⟩
      · rintro ⟨h1, h2⟩
        rcases List.mem_cons.1 h1 with h1 | h1
        · subst h1
          exact absurd (List.mem_of_elem_eq_true hc) h2
        · exact ⟨h1, h2⟩
    · rw [if_neg hc]
      constructor
      · intro h
        rcases List.mem_cons.1 h with h | h
        · subst h
          exact ⟨List.mem_cons_self _ _,
            fun hx => hc (List.elem_eq_true_of_mem hx)⟩
        · obtain ⟨h1, h2⟩ := (ih (a :: seen) x).1 h
          exact ⟨List.mem_cons_of_mem _ h1,
            fun hx => h2 (List.mem_cons_of_mem _ hx)⟩
      · rintro ⟨h1, h2⟩
        rcases List.mem_cons.1 h1 with h1 | h1
        · subst h1
          exact List.mem_cons_self _ _
        · by_cases hax : x = a
          · subst hax
            exact List.mem_cons_self _ _
          · exact List.mem_cons_of_mem _ ((ih (a :: seen) x).2
              ⟨h1, fun hx => (List.mem_cons.1 hx).elim hax h2⟩)

theorem mem_firstSeen {α : Type} [BEq α] [LawfulBEq α] {l : List α} {x : α} :
    x ∈ firstSeen l ↔ x ∈ l := by
  unfold firstSeen
  rw [mem_firstSeenAux]
  simp

theorem firstSeenAux_nodup {α : Type} [BEq α] [LawfulBEq α] :
    ∀ (l seen : List α), (firstSeenAux seen l).Nodup := by
  intro l
  induction l with
  | nil => intro seen; exact List.nodup_nil
  | cons a l ih =>
    intro seen
    rw [firstSeenAux]
    by_cases hc : seen.contains a
    · rw [if_pos hc]; exact ih seen
    · rw [if_neg hc]
      refine List.Nodup.cons ?_ (ih (a :: seen))
      intro hmem
      exact ((mem_firstSeenAux l (a :: seen) a).1 hmem).2 (List.mem_cons_self _ _)

theorem firstSeen_nodup {α : Type} [BEq α] [LawfulBEq α] (l : List α) :
    (firstSeen l).Nodup := firstSeenAux_nodup l []

instance : IsAntisymm ℚ (keyLE (id : ℚ → ℚ)) :=
  ⟨fun _ _ h1 h2 => le_antisymm h1 h2⟩

theorem mem_dedupSortQ {l : List ℚ} {x : ℚ} : x ∈ dedupSortQ l ↔ x ∈ l := by
  unfold dedupSortQ
  rw [mem_sortOn, mem_firstSeen]

theorem dedupSortQ_nodup (l : List ℚ) : (dedupSortQ l).Nodup :=
  ((sortOn_perm _ _).nodup_iff).2 (firstSeen_nodup l)

theorem dedupSortQ_sorted (l : List ℚ) :
    List.Sorted (keyLE (id : ℚ → ℚ)) (dedupSortQ l) := sortOn_sorted _ _

theorem dedupSortQ_eq_of_mem_iff {l g : List ℚ} (h : ∀ x, x ∈ l ↔ x ∈ g) :
    dedupSortQ l = dedupSortQ g := by
  have hperm : (dedupSortQ l).Perm (dedupSortQ g) := by
    apply List.perm_of_nodup_nodup_toFinset_eq (dedupSortQ_nodup l) (dedupSortQ_nodup g)
    ext x
    rw [List.mem_toFinset, List.mem_toFinset, mem_dedupSortQ, mem_dedupSortQ]
    exact h x
  exact List.eq_of_perm_of_sorted hperm (dedupSortQ_sorted l) (dedupSortQ_sorted g)

theorem dedupSortQ_append_subset {l g : List ℚ} (h : ∀ x ∈ l, x ∈ g) :
    dedupSortQ (l ++ g) = dedupSortQ g := by
  apply dedupSortQ_eq_of_mem_iff
  intro x
  rw [List.mem_append]
  exact ⟨fun hx => hx.elim (h x) (fun hx => hx), Or.inr⟩

/-- One cell of a table (NaN when out of bounds, like a missing value). -/
def entry (T : Table) (i j : Nat) : Option ℚ := (T.rows.getD i []).getD j none

/-- The element-wise (NaN-propagating) sum of a non-empty list of cells,
`reduce(operator.add, ...)` on one cell position. -/
def optSumL : List (Option ℚ) → Option ℚ
  | [] => none
  | x :: xs => xs.foldl optAdd x

theorem getD_map_nil {α β : Type} (g : List α → List β) (hg : g [] = []) :
    ∀ (l : List (List α)) (i : Nat), (l.map g).getD i [] = g (l.getD i []) := by
  intro l
  induction l with
  | nil => intro i; simp [hg]
  | cons a l ih =>
    intro i
    cases i with
    | zero => rfl
    | succ i => exact ih i

theorem getD_map_opt {α : Type} (g : Option α → Option α) (hg : g none = none) :
    ∀ (l : List (Option α)) (i : Nat), (l.map g).getD i none = g (l.getD i none) := by
  intro l
  induction l with
  | nil => intro i; simp [hg]
  | cons a l ih =>
    intro i
    cases i with
    | zero => rfl
    | succ i => exact ih i

theorem getD_zipWith_gen {α β γ : Type} (f : α → β → γ) (da : α) (db : β) (dg : γ) :
    ∀ (a : List α) (b : List β) (i : Nat), i < a.length → i < b.length →
      (List.zipWith f a b).getD i dg = f (a.getD i da) (b.getD i db) := by
  intro a
  induction a with
  | nil => intro b i h1 _; exact absurd h1 (by simp)
  | cons x xs ih =>
    intro b i h1 h2
    cases b with
    | nil => exact absurd h2 (by simp)
    | cons y ys =>
      cases i with
      | zero => rfl
      | succ i =>
        exact ih ys i (Nat.lt_of_succ_lt_succ h1) (Nat.lt_of_succ_lt_succ h2)

theorem getD_range (n i : Nat) (h : i < n) : (List.range n).getD i 0 = i := by
  rw [List.getD_eq_getElem _ _ (by simpa using h)]
  simp

/-- Shape of a table: row count and a uniform column count. -/
def TableShape (T : Table) (nR nA : Nat) : Prop :=
  T.rows.length = nR ∧ ∀ row ∈ T.rows, row.length = nA

theorem tableAdd_idx (t u : Table) : (Table.add t u).idx = t.idx := rfl

theorem tableAdd_shape {t u : Table} {nR nA : Nat}
    (ht : TableShape t nR nA) (hu : TableShape u nR nA) :
    TableShape (Table.add t u) nR nA := by
  obtain ⟨ht1, ht2⟩ := ht
  obtain ⟨hu1, hu2⟩ := hu
  constructor
  · simp [Table.add, ht1, hu1]
  · intro row hrow
    simp only [Table.add] at hrow
    obtain ⟨i, hi, hrow⟩ := List.mem_iff_getElem.1 hrow
    rw [List.getElem_zipWith] at hrow
    rw [← hrow, List.length_zipWith]
    have hi' : i < (List.zipWith (List.zipWith optAdd) t.rows u.rows).length := hi
    rw [List.length_zipWith, ht1, hu1] at hi'
    have h1 : t.rows[i].length = nA :=
      ht2 _ (List.getElem_mem (by rw [ht1]; exact lt_of_le_of_lt (le_refl i) (by simpa using hi')))
    have h2 : u.rows[i].length = nA :=
      hu2 _ (List.getElem_mem (by rw [hu1]; simpa using hi'))
    rw [h1, h2]
    simp

theorem rowsGetD_length {T : Table} {nR nA : Nat} (h : TableShape T nR nA)
    {i : Nat} (hi : i < nR) : (T.rows.getD i []).length = nA := by
  rw [List.getD_eq_getElem _ _ (h.1 ▸ hi)]
  exact h.2 _ (List.getElem_mem _)

theorem entry_tableAdd {t u : Table} {nR nA : Nat} (ht : TableShape t nR nA)
    (hu : TableShape u nR nA) {i j : Nat} (hi : i < nR) (hj : j < nA) :
    entry (Table.add t u) i j = optAdd (entry t i j) (entry u i j) := by
  unfold entry Table.add
  rw [getD_zipWith_gen (List.zipWith optAdd) [] [] [] t.rows u.rows i
    (ht.1 ▸ hi) (hu.1 ▸ hi)]
  rw [getD_zipWith_gen optAdd none none none _ _ j
    (by rw [rowsGetD_length ht hi]; exact hj)
    (by rw [rowsGetD_length hu hi]; exact hj)]

theorem foldl_add_idx :
    ∀ (Ts : List Table) (T : Table), (Ts.foldl Table.add T).idx = T.idx := by
  intro Ts
  induction Ts with
  | nil => intro T; rfl
  | cons U Ts ih => intro T; rw [List.foldl_cons, ih]; rfl

theorem foldl_add_shape {nR nA : Nat} :
    ∀ (Ts : List Table) (T : Table), TableShape T nR nA →
      (∀ U ∈ Ts, TableShape U nR nA) → TableShape (Ts.foldl Table.add T) nR nA := by
  intro Ts
  induction Ts with
  | nil => intro T hT _; exact hT
  | cons U Ts ih =>
    intro T hT hTs
    rw [List.foldl_cons]
    exact ih _ (tableAdd_shape hT (hTs U (List.mem_cons_self _ _)))
      (fun V hV => hTs V (List.mem_cons_of_mem _ hV))

theorem entry_foldl_add {nR nA : Nat} :
    ∀ (Ts : List Table) (T : Table), TableShape T nR nA →
      (∀ U ∈ Ts, TableShape U nR nA) →
      ∀ {i j : Nat}, i < nR → j < nA →
      entry (Ts.foldl Table.add T) i j =
        (Ts.map (fun U => entry U i j)).foldl optAdd (entry T i j) := by
  intro Ts
  induction Ts with
  | nil => intro T _ _ i j _ _; rfl
  | cons U Ts ih =>
    intro T hT hTs i j hi hj
    simp only [List.foldl_cons, List.map_cons]
    rw [ih (Table.add T U) (tableAdd_shape hT (hTs U (List.mem_cons_self _ _)))
      (fun V hV => hTs V (List.mem_cons_of_mem _ hV)) hi hj]
    rw [entry_tableAdd hT (hTs U (List.mem_cons_self _ _)) hi hj]

theorem entry_divN (T : Table) (n : ℚ) (i j : Nat) :
    entry (T.divN n) i j = Option.map (fun v => v / n) (entry T i j) := by
  unfold entry Table.divN
  rw [getD_map_nil (List.map (Option.map fun v => v / n)) rfl,
    getD_map_opt (Option.map fun v => v / n) rfl]

theorem getD_map_range {β : Type} (f : ℕ → β) (d : β) (n i : Nat) (hi : i < n) :
    ((List.range n).map f).getD i d = f i := by
  rw [List.getD_eq_getElem _ _ (by simpa using hi), List.getElem_map, List.getElem_range]

theorem stdsOf_entry (tables : List Table) (nR nA i j : Nat)
    (hi : i < nR) (hj : j < nA) :
    ((stdsOf tables nR nA).getD i []).getD j none = semSE (colSamples tables i j) := by
  unfold stdsOf
  rw [getD_map_range _ _ _ _ hi, getD_map_range _ _ _ _ hj]

theorem series_fst_mem {t : Trace} {index values : Result → ℚ} {q : ℚ × ℚ}
    (hq : q ∈ t.series index values) : ∃ r ∈ t.results, q.1 = index r := by
  unfold Trace.series at hq
  rw [mem_sortOn] at hq
  obtain ⟨r, hr, rfl⟩ := List.mem_map.1 hq
  exact ⟨r, hr, rfl⟩

theorem incumbent_trace_mem {t t' : Trace} {x : Result → ℚ} {y : String}
    (h : t.incumbent_trace x y = .ok t') : ∀ r ∈ t'.results, r ∈ t.results := by
  unfold Trace.incumbent_trace at h
  by_cases hy : y ≠ "loss"
  · rw [if_pos hy] at h; exact absurd h (by simp)
  · rw [if_neg hy] at h
    rcases hs : sortOn x t.results with _ | ⟨inc, rest⟩ <;> rw [hs] at h
    · exact absurd h (by simp)
    · simp only [Except.ok.injEq] at h
      subst h
      intro r hr
      have hsub : (inc :: incumbentLoop inc rest).Sublist (inc :: rest) :=
        List.Sublist.cons₂ _ (incumbentLoop_sublist inc rest)
      have hmem : r ∈ inc :: rest := hsub.subset hr
      rw [← hs] at hmem
      exact (mem_sortOn _).1 hmem

theorem algoSeries_ok {xaxis yaxis : Result → ℚ} {seed : Int}
    {p : String × AlgorithmResults} {s : List (ℚ × ℚ)}
    (h : algoSeries xaxis yaxis seed p = .ok s) :
    ∀ q ∈ s, ∃ tr, List.lookup seed p.2.traces = some tr ∧
      ∃ r ∈ tr.results, q.1 = xaxis r := by
  unfold algoSeries AlgorithmResults.lookupSeed at h
  rcases hl : List.lookup seed p.2.traces with _ | tr <;> simp only [hl] at h
  · exact absurd h (by simp)
  · rcases hi : tr.incumbent_trace xaxis "loss" with e | inc <;> simp only [hi] at h
    · exact absurd h (by simp)
    · simp only [Except.ok.injEq] at h
      subst h
      intro q hq
      obtain ⟨r, hr, hq1⟩ := series_fst_mem hq
      exact ⟨tr, rfl, r, incumbent_trace_mem hi r hr, hq1⟩

theorem mem_indicesAll {E : ExperimentResults} (xaxis : Result → ℚ)
    {b : String} {br : BenchmarkResults} (hbr : (b, br) ∈ E.results)
    {a : String} {ar : AlgorithmResults} (har : (a, ar) ∈ br.results)
    {s : Int} {tr : Trace} (htr : (s, tr) ∈ ar.traces)
    {r : Result} (hr : r ∈ tr.results) : xaxis r ∈ E.indicesAll xaxis := by
  unfold ExperimentResults.indicesAll
  rw [List.mem_flatten]
  refine ⟨_, List.mem_map.2 ⟨(b, br), hbr, rfl⟩, ?_⟩
  rw [List.mem_flatten]
  refine ⟨_, List.mem_map.2 ⟨(a, ar), har, rfl⟩, ?_⟩
  rw [List.mem_flatten]
  refine ⟨_, List.mem_map.2 ⟨(s, tr), htr, rfl⟩, ?_⟩
  exact List.mem_map.2 ⟨r, hr, rfl⟩

theorem rankRow_length (row : List (Option ℚ)) : (rankRow row).length = row.length := by
  unfold rankRow
  rw [List.length_map]

/-- A per-seed rank table whose series values all lie in `extra` is aligned
exactly to the sorted deduplicated `extra`, with one row per index value and
one column per algorithm. -/
theorem ranks_table_spec {br : BenchmarkResults} {xaxis yaxis : Result → ℚ}
    {seed : Int} {extra : List ℚ} {T : Table}
    (h : br.ranks xaxis yaxis seed (some extra) = .ok T)
    (hsub : ∀ p ∈ br.results, ∀ s, algoSeries xaxis yaxis seed p = .ok s →
        ∀ q ∈ s, q.1 ∈ extra) :
    T.idx = dedupSortQ extra ∧
    TableShape T (dedupSortQ extra).length br.results.length := by
  unfold BenchmarkResults.ranks at h
  rcases hraw : br.ranksRaw xaxis yaxis seed (some extra) with e | P <;> rw [hraw] at h
  · exact absurd h (by simp)
  · simp only [Except.ok.injEq] at h
    subst h
    unfold BenchmarkResults.ranksRaw at hraw
    rcases hm : exMapM (algoSeries xaxis yaxis seed) br.results with e | sl <;>
      rw [hm] at hraw
    · exact absurd hraw (by simp)
    · simp only [Except.ok.injEq] at hraw
      subst hraw
      have hidx : (buildTable sl ((some extra).getD [])).idx = dedupSortQ extra := by
        show dedupSortQ ((sl.map (fun s => s.map Prod.fst)).flatten ++ extra) = dedupSortQ extra
        apply dedupSortQ_append_subset
        intro x hx
        obtain ⟨xs, hxs, hxmem⟩ := List.mem_flatten.1 hx
        obtain ⟨s, hs, rfl⟩ := List.mem_map.1 hxs
        obtain ⟨q, hq, rfl⟩ := List.mem_map.1 hxmem
        obtain ⟨p, hp, hps⟩ := exMapM_ok_mem hm s hs
        exact hsub p hp s hps q hq
      refine ⟨hidx, ?_, ?_⟩
      · show (List.map rankRow (buildTable sl ((some extra).getD [])).rows).length = _
        rw [List.length_map]
        show ((List.range (buildTable sl ((some extra).getD [])).idx.length).map _).length = _
        rw [List.length_map, List.length_range, hidx]
      · intro row hrow
        obtain ⟨prow, hprow, rfl⟩ := List.mem_map.1 hrow
        rw [rankRow_length, buildTable_row_length _ _ prow hprow, exMapM_ok_length hm]

theorem prod_flatten_length {α β γ : Type} (l : List α) (m : List β) (f : α → β → γ) :
    ((l.map (fun b => m.map (f b))).flatten).length = l.length * m.length := by
  induction l with
  | nil => simp
  | cons a l ih => simp [ih, Nat.succ_mul, Nat.add_comm]

theorem pairTables_mem {E : ExperimentResults} {xaxis yaxis : Result → ℚ}
    {tables : List Table} (h : E.pairTables xaxis yaxis = .ok tables) :
    ∀ T ∈ tables, ∃ b s br, List.lookup b E.results = some br ∧
      br.ranks xaxis yaxis s (some (E.indicesAll xaxis)) = .ok T := by
  unfold ExperimentResults.pairTables at h
  intro T hT
  obtain ⟨bs, _, hok⟩ := exMapM_ok_mem h T hT
  rcases hl : List.lookup bs.1 E.results with _ | br <;> simp only [hl] at hok
  · exact absurd hok (by simp)
  · exact ⟨bs.1, bs.2, br, hl, hok⟩

theorem pairTables_length {E : ExperimentResults} {xaxis yaxis : Result → ℚ}
    {tables : List Table} (h : E.pairTables xaxis yaxis = .ok tables) :
    tables.length = E.benchmarks.length * E.seedsAll.length := by
  unfold ExperimentResults.pairTables at h
  rw [exMapM_ok_length h, prod_flatten_length]

/-- C6: `ExperimentResults.ranks` produces one rank table per pair in the
product of the benchmark set and the union of observed seeds, all aligned
to the sorted global union of axis values; a mean table equal to the
element-wise (NaN-propagating) average of those tables; and an uncertainty
table whose entry per algorithm per axis value is the standard error of the
mean — sample standard deviation over √n — of that algorithm's available
ranks across the (benchmark, seed) pairs. -/
theorem C6_experiment_rank_mean_and_sem (E : ExperimentResults)
    (xaxis yaxis : Result → ℚ) (tables : List Table)
    (hpt : E.pairTables xaxis yaxis = .ok tables)
    (hne : tables ≠ [])
    (halg : ∀ p ∈ E.results, p.2.results.length = E.algorithms.length) :
    ∃ means stds, E.ranks xaxis yaxis = .ok (means, stds) ∧
      tables.length = E.benchmarks.length * E.seedsAll.length ∧
      (∀ T ∈ tables, T.idx = dedupSortQ (E.indicesAll xaxis)) ∧
      means.idx = dedupSortQ (E.indicesAll xaxis) ∧
      (∀ i j, i < (dedupSortQ (E.indicesAll xaxis)).length → j < E.algorithms.length →
        entry means i j = Option.map (fun v => v / (tables.length : ℚ))
          (optSumL (tables.map (fun T => entry T i j)))) ∧
      stds = stdsOf tables (dedupSortQ (E.indicesAll xaxis)).length E.algorithms.length ∧
      (∀ i j, i < (dedupSortQ (E.indicesAll xaxis)).length → j < E.algorithms.length →
        (stds.getD i []).getD j none = semSE (colSamples tables i j)) ∧
      (∀ l : List ℚ, 2 ≤ l.length →
        semSE l = some (Real.sqrt ((sampleVar l : ℚ) : ℝ) /
          Real.sqrt ((l.length : ℕ) : ℝ))) := by
  have hTspec : ∀ T ∈ tables, T.idx = dedupSortQ (E.indicesAll xaxis) ∧
      TableShape T (dedupSortQ (E.indicesAll xaxis)).length E.algorithms.length := by
    intro T hT
    obtain ⟨b, s, br, hl, hok⟩ := pairTables_mem hpt T hT
    have hbrmem : (b, br) ∈ E.results := lookup_mem hl
    have hsub : ∀ p ∈ br.results, ∀ sN, algoSeries xaxis yaxis s p = .ok sN →
        ∀ q ∈ sN, q.1 ∈ E.indicesAll xaxis := by
      intro p hp sN hps q hq
      obtain ⟨tr, htr, r, hr, hq1⟩ := algoSeries_ok hps q hq
      rw [hq1]
      exact mem_indicesAll xaxis hbrmem (show ((p.1, p.2) : String × AlgorithmResults) ∈ br.results from hp)
        (lookup_mem htr) hr
    obtain ⟨hidx, hshape⟩ := ranks_table_spec hok hsub
    exact ⟨hidx, hshape.1,
      fun row hrow => (hshape.2 row hrow).trans (halg (b, br) hbrmem)⟩
  rcases htab : tables with _ | ⟨T, Ts⟩
  · exact absurd htab hne
  subst htab
  have hT0 := hTspec T (List.mem_cons_self _ _)
  have hTs : ∀ U ∈ Ts, TableShape U (dedupSortQ (E.indicesAll xaxis)).length
      E.algorithms.length :=
    fun U hU => (hTspec U (List.mem_cons_of_mem _ hU)).2
  have hmeans : E.ranksMeans xaxis yaxis =
      .ok ((Ts.foldl Table.add T).divN (((T :: Ts).length : ℕ) : ℚ)) := by
    unfold ExperimentResults.ranksMeans
    rw [hpt]
    rfl
  have hstds : E.ranksStds xaxis yaxis =
      .ok (stdsOf (T :: Ts) T.idx.length E.algorithms.length) := by
    unfold ExperimentResults.ranksStds
    rw [hpt]
  refine ⟨(Ts.foldl Table.add T).divN (((T :: Ts).length : ℕ) : ℚ),
    stdsOf (T :: Ts) T.idx.length E.algorithms.length,
    ?_, pairTables_length hpt, fun U hU => (hTspec U hU).1, ?_, ?_, ?_, ?_, ?_⟩
  · unfold ExperimentResults.ranks
    rw [hmeans, hstds]
  · show ((Ts.foldl Table.add T).divN (((T :: Ts).length : ℕ) : ℚ)).idx = _
    show (Ts.foldl Table.add T).idx = _
    rw [foldl_add_idx, hT0.1]
  · intro i j hi hj
    rw [entry_divN, entry_foldl_add Ts T hT0.2 hTs hi hj]
    rfl
  · rw [hT0.1]
  · intro i j hi hj
    rw [hT0.1]
    exact stdsOf_entry _ _ _ _ _ hi hj
  · intro l hl
    unfold semSE
    rw [if_neg (by omega)]

def expScenD : ExperimentResults :=
  ⟨["algo_a", "algo_b"], ["bench"], [("bench", benchScenD)]⟩

theorem C6_witness :
    (expScenD.pairTables (fun r => r.end_time) (fun r => r.loss) =
      .ok [⟨[1, 3], [[some 1, some 2], [some 2, some 1]]⟩]) ∧
    ([(⟨[1, 3], [[some 1, some 2], [some 2, some 1]]⟩ : Table)] ≠ []) ∧
    (∀ p ∈ expScenD.results, p.2.results.length = expScenD.algorithms.length) ∧
    (∃ means stds,
      expScenD.ranks (fun r => r.end_time) (fun r => r.loss) = .ok (means, stds) ∧
      ([(⟨[1, 3], [[some 1, some 2], [some 2, some 1]]⟩ : Table)]).length =
        expScenD.benchmarks.length * expScenD.seedsAll.length ∧
      (∀ T ∈ [(⟨[1, 3], [[some 1, some 2], [some 2, some 1]]⟩ : Table)],
        T.idx = dedupSortQ (expScenD.indicesAll (fun r => r.end_time))) ∧
      means.idx = dedupSortQ (expScenD.indicesAll (fun r => r.end_time)) ∧
      (∀ i j, i < (dedupSortQ (expScenD.indicesAll (fun r => r.end_time))).length →
        j < expScenD.algorithms.length →
        entry means i j = Option.map
          (fun v => v / (([(⟨[1, 3], [[some 1, some 2], [some 2, some 1]]⟩ : Table)]).length : ℚ))
          (optSumL (([(⟨[1, 3], [[some 1, some 2], [some 2, some 1]]⟩ : Table)]).map
            (fun T => entry T i j)))) ∧
      stds = stdsOf [(⟨[1, 3], [[some 1, some 2], [some 2, some 1]]⟩ : Table)]
        (dedupSortQ (expScenD.indicesAll (fun r => r.end_time))).length
        expScenD.algorithms.length ∧
      (∀ i j, i < (dedupSortQ (expScenD.indicesAll (fun r => r.end_time))).length →
        j < expScenD.algorithms.length →
        (stds.getD i []).getD j none = semSE
          (colSamples [(⟨[1, 3], [[some 1, some 2], [some 2, some 1]]⟩ : Table)] i j)) ∧
      (∀ l : List ℚ, 2 ≤ l.length →
        semSE l = some (Real.sqrt ((sampleVar l : ℚ) : ℝ) /
          Real.sqrt ((l.length : ℕ) : ℝ)))) :=
  ⟨by with_unfolding_all rfl, by simp,
   by
     intro p hp
     have hp' : p ∈ [("bench", benchScenD)] := hp
     rw [List.mem_singleton] at hp'
     subst hp'
     rfl,
   C6_experiment_rank_mean_and_sem expScenD (fun r => r.end_time) (fun r => r.loss)
     [⟨[1, 3], [[some 1, some 2], [some 2, some 1]]⟩]
     (by with_unfolding_all rfl) (by simp)
     (by
       intro p hp
       have hp' : p ∈ [("bench", benchScenD)] := hp
       rw [List.mem_singleton] at hp'
       subst hp'
       rfl)⟩

end MFP
